import Mathlib

/-!
Verification of the server-log-analyzer core: the schema-inference engine
(`internal/parser`) and the read-only SQL query validator
(`internal/commands/query.go`), shallowly embedded over `List Char`.

Strings are handled through their underlying character lists.  Case mapping
and whitespace classification are modelled on the ASCII fragment of Go's
`strings.ToLower` / `strings.TrimSpace`; every input appearing in the claims
is ASCII, where the two coincide.
-/

set_option maxRecDepth 4096

/-! ## Character utilities (ASCII fragments of the Go standard library)

Character classes and case mapping are expressed through `Char.toNat`
(character equality in Lean is code-point equality, so the two views
coincide); this keeps all later reasoning in `Nat` arithmetic. -/

/-- `Char.toNat` is injective: a character is its code point. -/
theorem charToNatInj {a b : Char} (h : a.toNat = b.toNat) : a = b := by
  apply Char.ext
  exact UInt32.toNat.inj h

/-- `Char.ofNat` on a valid (basic-plane) code point round-trips. -/
theorem toNat_ofNat_valid {n : Nat} (h : n < 55296) : (Char.ofNat n).toNat = n := by
  have hv : n.isValidChar := Or.inl h
  rw [Char.ofNat, dif_pos hv]
  rfl

/-- Decimal digit `0`-`9` (codes 48-57), as classified by `strconv`. -/
def isDigitChar (c : Char) : Bool := decide (48 ≤ c.toNat ∧ c.toNat ≤ 57)

/-- ASCII letter `A`-`Z` (65-90) or `a`-`z` (97-122). -/
def isAlphaChar (c : Char) : Bool :=
  decide ((65 ≤ c.toNat ∧ c.toNat ≤ 90) ∨ (97 ≤ c.toNat ∧ c.toNat ≤ 122))

/-- ASCII fragment of the case mapping used by `strings.ToLower`:
`A`-`Z` (codes 65-90) shift by 32. -/
def lowerChar (c : Char) : Char :=
  if 65 ≤ c.toNat ∧ c.toNat ≤ 90 then Char.ofNat (c.toNat + 32) else c

/-- ASCII fragment of the case mapping used by `strings.ToUpper`:
`a`-`z` (codes 97-122) shift by -32. -/
def upperChar (c : Char) : Char :=
  if 97 ≤ c.toNat ∧ c.toNat ≤ 122 then Char.ofNat (c.toNat - 32) else c

/-- ASCII fragment of the whitespace class used by `strings.TrimSpace`:
space, tab, newline, vertical tab, form feed, carriage return
(`unicode.IsSpace` additionally accepts some non-ASCII code points that do
not occur in any input considered here). -/
def isGoSpace (c : Char) : Bool :=
  decide (c.toNat = 32 ∨ c.toNat = 9 ∨ c.toNat = 10 ∨ c.toNat = 11 ∨
    c.toNat = 12 ∨ c.toNat = 13)

/-- `strings.TrimSpace` on a character list. -/
def trimChars (l : List Char) : List Char :=
  ((l.dropWhile isGoSpace).reverse.dropWhile isGoSpace).reverse

/-- Restatement of the library fact that the Boolean head test agrees
with the head-run relation. -/
theorem listIsPrefixOfIff {l1 l2 : List Char} :
    l1.isPrefixOf l2 = true ↔ l1 <+: l2 := List.isPrefixOf_iff_prefix

/-- Restatement of the library fact that `take` yields a head run. -/
theorem listTakePrefixOf {α : Type} (n : Nat) (l : List α) :
    l.take n <+: l := List.take_prefix n l

/-- Restatement of the library fact relating reversed head and tail
runs. -/
theorem listReversePrefixIff {α : Type} {l1 l2 : List α} :
    l1.reverse <+: l2.reverse ↔ l1 <:+ l2 := List.reverse_prefix


/-- `strings.ToLower` on a character list (ASCII fragment). -/
def lowerStr (l : List Char) : List Char := l.map lowerChar

/-! ## `strconv.ParseInt(s, 10, 64)` and `strconv.ParseFloat(s, 64)` -/

/-- Decimal value of a digit list (most significant first). -/
def digitsVal (l : List Char) : Nat :=
  l.foldl (fun a d => a * 10 + (d.toNat - 48)) 0

/-- `strconv.ParseInt(s, 10, 64)`: an optional sign, then one or more
decimal digits (underscores are rejected for an explicit base), with an
`int64` range check. -/
def parseInt64 (s : String) : Option Int :=
  match s.data with
  | [] => none
  | c :: rest =>
    let neg := c = '-'
    let ds := if c = '-' ∨ c = '+' then rest else c :: rest
    if ds ≠ [] ∧ ds.all isDigitChar then
      let n : Int := Int.ofNat (digitsVal ds)
      let v : Int := if neg then -n else n
      if -(2 ^ 63) ≤ v ∧ v ≤ 2 ^ 63 - 1 then some v else none
    else none

/-- Splits off a leading run of decimal digits. -/
def splitDigits (l : List Char) : List Char × List Char :=
  (l.takeWhile isDigitChar, l.dropWhile isDigitChar)

/-- Exponent part of a decimal float literal: empty, or `e`/`E`, an optional
sign, and one or more digits. -/
def expPartOk (l : List Char) : Bool :=
  match l with
  | [] => true
  | e :: r =>
    if e = 'e' ∨ e = 'E' then
      let r2 := if r.head? = some '+' ∨ r.head? = some '-' then r.tail else r
      let (d, rest) := splitDigits r2
      !d.isEmpty && rest.isEmpty
    else false

/-- Decimal mantissa with optional fraction and exponent, as accepted by
`strconv.ParseFloat` after the sign. -/
def decMantissaExp (l : List Char) : Bool :=
  let (d1, r1) := splitDigits l
  if r1.head? = some '.' then
    let (d2, r3) := splitDigits r1.tail
    (!d1.isEmpty || !d2.isEmpty) && expPartOk r3
  else !d1.isEmpty && expPartOk r1

/-- Hexadecimal digit class: `0`-`9`, `a`-`f`, `A`-`F`. -/
def isHexDigitChar (c : Char) : Bool :=
  isDigitChar c || decide (97 ≤ c.toNat ∧ c.toNat ≤ 102) ||
    decide (65 ≤ c.toNat ∧ c.toNat ≤ 70)

/-- Hexadecimal float mantissa with mandatory `p` exponent
(`strconv.ParseFloat` hexadecimal form, after the `0x` prefix). -/
def hexMantissa (l : List Char) : Bool :=
  let d1 := l.takeWhile isHexDigitChar
  let r1 := l.dropWhile isHexDigitChar
  let d2 := if r1.head? = some '.' then r1.tail.takeWhile isHexDigitChar else []
  let r3 := if r1.head? = some '.' then r1.tail.dropWhile isHexDigitChar else r1
  (!d1.isEmpty || !d2.isEmpty) &&
    (match r3 with
     | p :: r4 =>
       if p = 'p' ∨ p = 'P' then
         let r5 := if r4.head? = some '+' ∨ r4.head? = some '-' then r4.tail else r4
         let (d, rest) := splitDigits r5
         !d.isEmpty && rest.isEmpty
       else false
     | [] => false)

/-- `strconv.ParseFloat(s, 64)` success predicate: an optional sign, then
`inf`/`infinity`/`nan` (case-insensitive), a decimal mantissa with optional
exponent, or a hexadecimal mantissa (prefix `0x`/`0X`) with mandatory `p`
exponent.  (Digit-separating underscores are not modelled; no claim input
uses them.) -/
def parseFloatOk (s : String) : Bool :=
  match s.data with
  | [] => false
  | c :: rest =>
    let body := if c = '+' ∨ c = '-' then rest else c :: rest
    let low := lowerStr body
    low == "inf".data || low == "infinity".data || low == "nan".data ||
      (if body.head? = some '0' ∧
          (body.tail.head? = some 'x' ∨ body.tail.head? = some 'X') then
        hexMantissa body.tail.tail
      else decMantissaExp body)

/-! ## `time.Parse` layout skeletons

`isTimestamp` tries the eight layout strings below with Go's `time.Parse`.
The layouts are modelled as token skeletons: a numeric field consumes a
bounded run of decimal digits, a name field consumes a run of letters, and
layout literals must match exactly.  Semantic range checks (month at most
12, and so on) are not modelled; they only further restrict acceptance, and
every property proved below about the layouts is a rejection, which each
layout already forces through its literal separators. -/

inductive Tok where
  | digits (lo hi : Nat)
  | letters (lo hi : Nat)
  | lit (c : Char)
  | zoneRFC
deriving DecidableEq

/-- Skeleton matching of a layout token list against a character list. -/
def matchToks : List Tok → List Char → Bool
  | [], xs => xs.isEmpty
  | Tok.lit c :: ts, xs =>
    if xs.head? = some c then matchToks ts xs.tail else false
  | Tok.digits lo hi :: ts, xs =>
    (List.range (hi + 1)).any fun w =>
      decide (lo ≤ w) && decide (w ≤ xs.length) &&
        (xs.take w).all isDigitChar && matchToks ts (xs.drop w)
  | Tok.letters lo hi :: ts, xs =>
    (List.range (hi + 1)).any fun w =>
      decide (lo ≤ w) && decide (w ≤ xs.length) &&
        (xs.take w).all isAlphaChar && matchToks ts (xs.drop w)
  | Tok.zoneRFC :: ts, xs =>
    (match xs with
     | 'Z' :: rest => matchToks ts rest
     | _ => false) ||
    (match xs with
     | s :: h1 :: h2 :: ':' :: m1 :: m2 :: rest =>
       (s == '+' || s == '-') && isDigitChar h1 && isDigitChar h2 &&
         isDigitChar m1 && isDigitChar m2 && matchToks ts rest
     | _ => false)

/-- Layout `time.RFC3339` = `2006-01-02T15:04:05Z07:00`. -/
def fmtRFC3339 : List Tok :=
  [.digits 4 4, .lit '-', .digits 2 2, .lit '-', .digits 2 2, .lit 'T',
   .digits 1 2, .lit ':', .digits 2 2, .lit ':', .digits 2 2, .zoneRFC]

/-- Layout `2006-01-02 15:04:05`. -/
def fmtDateTimeSpace : List Tok :=
  [.digits 4 4, .lit '-', .digits 2 2, .lit '-', .digits 2 2, .lit ' ',
   .digits 1 2, .lit ':', .digits 2 2, .lit ':', .digits 2 2]

/-- Layout `2006-01-02T15:04:05`. -/
def fmtDateTimeT : List Tok :=
  [.digits 4 4, .lit '-', .digits 2 2, .lit '-', .digits 2 2, .lit 'T',
   .digits 1 2, .lit ':', .digits 2 2, .lit ':', .digits 2 2]

/-- Layout `2006-01-02 15:04:05.000`. -/
def fmtDateTimeMs : List Tok :=
  fmtDateTimeSpace ++ [.lit '.', .digits 3 3]

/-- Layout `01/02/2006 15:04:05`. -/
def fmtSlash : List Tok :=
  [.digits 2 2, .lit '/', .digits 2 2, .lit '/', .digits 4 4, .lit ' ',
   .digits 1 2, .lit ':', .digits 2 2, .lit ':', .digits 2 2]

/-- Layout `2006-01-02`. -/
def fmtDate : List Tok :=
  [.digits 4 4, .lit '-', .digits 2 2, .lit '-', .digits 2 2]

/-- Layout `Mon Jan 2 15:04:05 MST 2006`. -/
def fmtAnsicZone : List Tok :=
  [.letters 3 3, .lit ' ', .letters 3 3, .lit ' ', .digits 1 2, .lit ' ',
   .digits 1 2, .lit ':', .digits 2 2, .lit ':', .digits 2 2, .lit ' ',
   .letters 1 8, .lit ' ', .digits 4 4]

/-- Layout `Mon Jan 2 15:04:05 2006`. -/
def fmtAnsic : List Tok :=
  [.letters 3 3, .lit ' ', .letters 3 3, .lit ' ', .digits 1 2, .lit ' ',
   .digits 1 2, .lit ':', .digits 2 2, .lit ':', .digits 2 2, .lit ' ',
   .digits 4 4]

/-- The `timestampFormats` list of `isTimestamp`, in source order. -/
def timestampFormats : List (List Tok) :=
  [fmtRFC3339, fmtDateTimeSpace, fmtDateTimeT, fmtDateTimeMs, fmtSlash,
   fmtDate, fmtAnsicZone, fmtAnsic]

/-! ## `internal/parser`: column types and value classification -/

/-- `ColumnType` from `internal/parser`. -/
inductive ColumnType where
  | text
  | integer
  | real
  | timestamp
  | boolean
deriving DecidableEq

/-- `ColumnType.SQLType` from `internal/parser`. -/
def ColumnType.SQLType : ColumnType → String
  | .integer => "INTEGER"
  | .real => "REAL"
  | .timestamp => "DATETIME"
  | .boolean => "BOOLEAN"
  | _ => "TEXT"

/-- `isTimestamp` from `internal/parser`: a parsed integer inside the
seconds range [315532800, 2524608000] or the milliseconds range
[315532800000, 2524608000000] is a timestamp; otherwise the eight textual
layouts are tried. -/
def isTimestamp (value : String) : Bool :=
  match parseInt64 value with
  | some t =>
    if (315532800 ≤ t ∧ t ≤ 2524608000) ∨
        (315532800000 ≤ t ∧ t ≤ 2524608000000) then true
    else timestampFormats.any fun f => matchToks f value.data
  | none => timestampFormats.any fun f => matchToks f value.data

/-- `isBoolean` from `internal/parser`. -/
def isBoolean (value : String) : Bool :=
  let lower := lowerStr value.data
  lower == "true".data || lower == "false".data ||
    lower == "yes".data || lower == "no".data ||
    lower == "y".data || lower == "n".data

/-- `inferValueType` from `internal/parser`: integer (or timestamp-shaped
integer) first, then float, then boolean, then textual timestamp, then
text. -/
def inferValueType (value : String) : ColumnType :=
  match parseInt64 value with
  | some _ => if isTimestamp value then .timestamp else .integer
  | none =>
    if parseFloatOk value then .real
    else if isBoolean value then .boolean
    else if isTimestamp value then .timestamp
    else .text

/-! ## `internal/parser`: column-level aggregation and schema assembly -/

/-- `config.SchemaDetectionSampleSize`. -/
def SchemaDetectionSampleSize : Nat := 1000

/-- `getMostCommonType` from `internal/parser`.  The vote tally is a
function from types to counts; Go iterates its vote map in unspecified
order, modelled here by the fixed scan order below (every claim settled
against this definition involves a unique maximum, where the order is
irrelevant).  The confidence comparison
`float64(maxVotes)/float64(totalValues) >= 0.8` is modelled exactly as
`4 * totalValues ≤ 5 * maxVotes`; for the tallies realizable here (at most
1000 votes) the correctly rounded float comparison and the rational one
agree. -/
def getMostCommonType (votes : ColumnType → Nat) (totalValues : Nat) : ColumnType :=
  if totalValues = 0 then .text
  else
    let best :=
      [ColumnType.text, .integer, .real, .timestamp, .boolean].foldl
        (fun acc t => if acc.1 < votes t then (votes t, t) else acc)
        ((0 : Nat), ColumnType.text)
    if 4 * totalValues ≤ 5 * best.1 then best.2 else .text

/-- The vote of one sampled row for one column: a row without a field at
`columnIndex` or whose trimmed value is empty casts no vote, every other
row votes `inferValueType` of its trimmed value. -/
def rowVote (columnIndex : Nat) (r : List String) : Option ColumnType :=
  match r.get? columnIndex with
  | none => none
  | some v =>
    let tv := trimChars v.data
    if tv.isEmpty then none else some (inferValueType ⟨tv⟩)

/-- The votes cast for a column: the first `sampleSize` rows are scanned,
each contributing its `rowVote`.  This is the loop body of
`detectColumnType`. -/
def columnVotes (records : List (List String)) (columnIndex sampleSize : Nat) :
    List ColumnType :=
  (records.take sampleSize).filterMap (rowVote columnIndex)

/-- `detectColumnType` from `internal/parser`: returns `text` outright when
there are no records or the first record has no field at `columnIndex`;
otherwise aggregates the votes of the sampled rows. -/
def detectColumnType (records : List (List String)) (columnIndex sampleSize : Nat) :
    ColumnType :=
  match records with
  | [] => .text
  | r0 :: _ =>
    if r0.length ≤ columnIndex then .text
    else
      let vs := columnVotes records columnIndex sampleSize
      getMostCommonType (fun t => vs.count t) vs.length

/-- `strings.ReplaceAll(s, old, "_")` for a single-character pattern: a
character map. -/
def replaceChar (old : Char) (l : List Char) : List Char :=
  l.map fun c => if c = old then '_' else c

/-- `sanitizeColumnName` from `internal/parser`: replace each of space,
`-`, `.`, `/`, `\` with `_` (single-character `strings.ReplaceAll`, i.e. a
character map), lowercase, prepend `col_` when the first character is a
decimal digit, and fall back to `unnamed_column` when empty. -/
def sanitizeColumnName (name : String) : String :=
  let l := replaceChar ' ' name.data
  let l := replaceChar '-' l
  let l := replaceChar '.' l
  let l := replaceChar '/' l
  let l := replaceChar '\\' l
  let l := lowerStr l
  let l := match l with
    | c :: _ => if 48 ≤ c.toNat ∧ c.toNat ≤ 57 then "col_".data ++ l else l
    | [] => l
  if l.isEmpty then "unnamed_column" else ⟨l⟩

/-- `strings.Contains`: `sub` occurs as a contiguous run of `l`. -/
def containsSub (l sub : List Char) : Bool :=
  sub.isPrefixOf l ||
    match l with
    | [] => false
    | _ :: rest => containsSub rest sub

/-- The exact-match list of `shouldIndex`. -/
def exactIndexMatches : List String :=
  ["id", "timestamp", "time", "date", "username", "user", "operation",
   "action", "method", "type", "status", "code", "ip", "host", "domain"]

/-- `shouldIndex` from `internal/parser`. -/
def shouldIndex (columnName : String) : Bool :=
  let lower := lowerStr columnName.data
  exactIndexMatches.any (fun m => lower == m.data) ||
    "_id".data.isSuffixOf lower || "id_".data.isPrefixOf lower ||
    "_code".data.isSuffixOf lower || "code_".data.isPrefixOf lower ||
    containsSub lower "status_code".data ||
    containsSub lower "user_".data || containsSub lower "_user".data ||
    containsSub lower "time".data || containsSub lower "date".data ||
    containsSub lower "created".data || containsSub lower "updated".data ||
    containsSub lower "ip_".data || containsSub lower "_ip".data ||
    "_address".data.isSuffixOf lower

/-- `ColumnSchema` from `internal/parser`. -/
structure ColumnSchema where
  Name : String
  /-- The source field is called `Type`, a reserved word in Lean. -/
  Typ : ColumnType
  Nullable : Bool
  Index : Bool
deriving DecidableEq

/-- `TableSchema` from `internal/parser`. -/
structure TableSchema where
  Name : String
  Columns : List ColumnSchema
deriving DecidableEq

/-- `DetectSchema` from `internal/parser`.  Go first fills each column with
type `text` and then overwrites it with `detectColumnType`; the net result
is built directly. -/
def DetectSchema (headers : List String) (records : List (List String))
    (tableName : String) : Except String TableSchema :=
  if headers.isEmpty then .error "no headers found"
  else if records.isEmpty then .error "no data records found"
  else
    let sampleSize := Nat.min records.length SchemaDetectionSampleSize
    let cols := headers.enum.map fun p =>
      { Name := sanitizeColumnName p.2
        Typ := detectColumnType records p.1 sampleSize
        Nullable := false
        Index := shouldIndex p.2 : ColumnSchema }
    .ok { Name := tableName, Columns := cols }

/-- One rendered column definition of `GenerateCreateTableSQL`:
`fmt.Sprintf("%s %s", col.Name, col.Type.SQLType())` plus ` NOT NULL` for
non-nullable columns. -/
def colDef (col : ColumnSchema) : String :=
  col.Name ++ " " ++ col.Typ.SQLType ++ (if col.Nullable then "" else " NOT NULL")

/-- The `columns` slice built by `GenerateCreateTableSQL`: the synthetic
auto-increment primary key followed by one definition per declared column. -/
def createTableColumns (ts : TableSchema) : List String :=
  "id INTEGER PRIMARY KEY AUTOINCREMENT" :: ts.Columns.map colDef

/-- `strings.Join` with a separator. -/
def joinSep (sep : String) : List String → String
  | [] => ""
  | [s] => s
  | s :: rest => s ++ sep ++ joinSep sep rest

/-- `GenerateCreateTableSQL` from `internal/parser`. -/
def GenerateCreateTableSQL (ts : TableSchema) : String :=
  "CREATE TABLE IF NOT EXISTS " ++ ts.Name ++ " (\n  " ++
    joinSep ",\n  " (createTableColumns ts) ++ "\n)"

/-! ## `internal/commands`: the read-only query validator

`ValidateReadOnlyQuery` normalizes (lowercase + trim), strips `--` line
comments and `/* */` block comments with the two Go regular expressions
`--.*` and `/\*.*?\*/` (in both, `.` does not match a newline), re-trims,
and then applies the prefix whitelist, the whole-word forbidden-keyword
scan, the semicolon count, and a parenthesis re-scan, in that order. -/

/-- The error kinds of `ValidateReadOnlyQuery`, one per distinct
`fmt.Errorf` site (the keyword found is carried upper-cased, as reported). -/
inductive QueryError where
  | emptyQuery
  | pragmaNotAllowed
  | notReadOnly
  | forbiddenKeyword (kw : String)
  | forbiddenKeywordSubquery (kw : String)
  | multipleStatements
deriving DecidableEq

/-- Length bound for `dropWhile`, used for termination. -/
theorem lengthDropWhileLe (p : Char → Bool) (l : List Char) :
    (l.dropWhile p).length ≤ l.length := by
  induction l with
  | nil => simp
  | cons c rest ih =>
    by_cases h : p c
    · simpa [List.dropWhile, h] using le_trans ih (Nat.le_succ _)
    · simp [List.dropWhile, h]

/-- Length bound for `tail`, used for termination. -/
theorem lengthTailLe (l : List Char) : l.tail.length ≤ l.length := by
  cases l <;> simp [Nat.le_succ]

/-- One-pass scan for `stripLine`; the flag records whether the scan is
inside a line comment.  Outside a comment, a `-` followed by another `-`
enters comment mode (the second `-` is consumed by the comment mode, which
drops everything up to, but not including, the next newline). -/
def stripLineAux : Bool → List Char → List Char
  | _, [] => []
  | true, c :: rest =>
    if c = '\n' then c :: stripLineAux false rest else stripLineAux true rest
  | false, c :: rest =>
    if c = '-' ∧ rest.head? = some '-' then stripLineAux true rest
    else c :: stripLineAux false rest

/-- Replacement with the empty string of every match of the Go regular
expression `--.*` (`.` does not match `\n`, so each match runs greedily
from a `--` to the end of its line, the newline itself surviving). -/
def stripLine (l : List Char) : List Char := stripLineAux false l

/-- Searches for the closing `*/` of a block comment on the current line:
returns the remainder after the first `*/` reached without crossing a
newline, and `none` otherwise. -/
def chopClose (l : List Char) : Option (List Char) :=
  match l with
  | [] => none
  | c :: rest =>
    if c = '*' ∧ rest.head? = some '/' then some rest.tail
    else if c = '\n' then none
    else chopClose rest

/-- `chopClose` yields a suffix no longer than its input. -/
theorem chopClose_length {l r : List Char} (h : chopClose l = some r) :
    r.length ≤ l.length := by
  induction l with
  | nil => simp [chopClose] at h
  | cons c rest ih =>
    rw [chopClose] at h
    split at h
    · cases h
      exact le_trans (lengthTailLe _) (Nat.le_succ _)
    · split at h
      · cases h
      · exact le_trans (ih h) (Nat.le_succ _)

/-- Fueled scan for `stripBlock`; each step consumes at least one
character, so fuel equal to the list length suffices. -/
def stripBlockF : Nat → List Char → List Char
  | 0, l => l
  | _ + 1, [] => []
  | f + 1, c :: rest =>
    if c = '/' ∧ rest.head? = some '*' then
      match chopClose rest.tail with
      | some rest2 => stripBlockF f rest2
      | none => c :: stripBlockF f rest
    else c :: stripBlockF f rest

/-- Replacement with the empty string of every match of the Go regular
expression `/\*.*?\*/`: at each `/*`, the earliest `*/` on the same line
(leftmost-shortest match, `.` not crossing `\n`) closes the comment; a
`/*` with no such closing is not a match and scanning resumes one
character later. -/
def stripBlock (l : List Char) : List Char := stripBlockF l.length l

/-- `stripBlockF` ignores fuel beyond the list length. -/
theorem stripBlockF_fuel :
    ∀ (f g : Nat) (l : List Char), l.length ≤ f → l.length ≤ g →
      stripBlockF f l = stripBlockF g l := by
  intro f
  induction f with
  | zero =>
    intro g l hf _
    cases l with
    | nil => cases g <;> rfl
    | cons c rest => simp at hf
  | succ f ih =>
    intro g l hf hg
    cases l with
    | nil => cases g <;> rfl
    | cons c rest =>
      cases g with
      | zero => simp at hg
      | succ g =>
        simp only [List.length_cons, Nat.succ_le_succ_iff] at hf hg
        rw [stripBlockF, stripBlockF]
        by_cases hc : c = '/' ∧ rest.head? = some '*'
        · simp only [if_pos hc]
          cases hcc : chopClose rest.tail with
          | some rest2 =>
            have h2 : rest2.length ≤ rest.length :=
              le_trans (chopClose_length hcc) (lengthTailLe _)
            exact ih g rest2 (le_trans h2 hf) (le_trans h2 hg)
          | none => rw [ih g rest hf hg]
        · simp only [if_neg hc]
          rw [ih g rest hf hg]

/-- The one-step unfolding of `stripBlock`. -/
theorem stripBlock_cons (c : Char) (rest : List Char) :
    stripBlock (c :: rest) =
      if c = '/' ∧ rest.head? = some '*' then
        match chopClose rest.tail with
        | some rest2 => stripBlock rest2
        | none => c :: stripBlock rest
      else c :: stripBlock rest := by
  rw [stripBlock, List.length_cons, stripBlockF]
  by_cases hc : c = '/' ∧ rest.head? = some '*'
  · simp only [if_pos hc]
    cases hcc : chopClose rest.tail with
    | some rest2 =>
      show stripBlockF rest.length rest2 = stripBlock rest2
      rw [stripBlock]
      exact stripBlockF_fuel _ _ _
        (le_trans (chopClose_length hcc) (lengthTailLe _)) (le_refl _)
    | none =>
      show c :: stripBlockF rest.length rest = c :: stripBlock rest
      rw [stripBlock]
  · simp only [if_neg hc]
    show c :: stripBlockF rest.length rest = c :: stripBlock rest
    rw [stripBlock]

/-- The full normalization pipeline of `ValidateReadOnlyQuery`:
`strings.TrimSpace(strings.ToLower(query))`, line-comment removal,
block-comment removal, and a final `strings.TrimSpace`. -/
def normalizeQuery (query : String) : List Char :=
  trimChars (stripBlock (stripLine (trimChars (lowerStr query.data))))

/-- The allowed statement head keywords. -/
def allowedHeads : List String := ["select", "with", "explain"]

/-- The read-only pragma whitelist, matched by string head. -/
def allowedPragmas : List String :=
  ["pragma table_info(", "pragma index_list(", "pragma index_info(",
   "pragma foreign_key_list(", "pragma schema_version",
   "pragma user_version", "pragma database_list", "pragma compile_options"]

/-- The forbidden keyword list, in source order. -/
def forbiddenKeywords : List String :=
  ["insert", "update", "delete", "drop", "create", "alter",
   "truncate", "replace", "merge", "upsert",
   "attach", "detach", "vacuum", "reindex",
   "begin", "commit", "rollback", "savepoint"]

/-- Go regexp `\w` class: `[0-9A-Za-z_]`. -/
def isWordChar (c : Char) : Bool := isDigitChar c || isAlphaChar c || c = '_'

/-- A position is a word boundary against an adjacent character that is
absent or a non-word character. -/
def boundaryOk : Option Char → Bool
  | none => true
  | some c => !isWordChar c

/-- Scan for a whole-word occurrence of `kw` (all of whose characters are
word characters) in the remaining text, `prev` being the character just
before the current position.  This is `regexp \b kw \b` matching. -/
def containsWordAux (kw : List Char) (prev : Option Char) (l : List Char) : Bool :=
  (kw.isPrefixOf l && boundaryOk prev && boundaryOk (l.drop kw.length).head?) ||
    match l with
    | [] => false
    | c :: rest => containsWordAux kw (some c) rest

/-- Whole-word containment of `kw` in `l`. -/
def containsWholeWord (l kw : List Char) : Bool := containsWordAux kw none l

/-- `strings.Split(l, ";")`. -/
def splitSemi : List Char → List (List Char)
  | [] => [[]]
  | c :: rest =>
    if c = ';' then [] :: splitSemi rest
    else
      match splitSemi rest with
      | [] => [[c]]
      | h :: t => (c :: h) :: t

/-- `strings.ToUpper` on a string (ASCII fragment). -/
def upperStr (s : String) : String := ⟨s.data.map upperChar⟩

/-- The checks of `ValidateReadOnlyQuery` that follow the statement-head
gate: the whole-text forbidden-keyword scan, the semicolon count
(`strings.Split` yielding more than two segments), and the re-scan guarded
by the presence of both parentheses (which can never fire, since the first
scan already returned on any match). -/
def keywordAndStatementChecks (nq : List Char) : Except QueryError Unit :=
  match forbiddenKeywords.find? (fun kw => containsWholeWord nq kw.data) with
  | some kw => .error (.forbiddenKeyword (upperStr kw))
  | none =>
    if 2 < (splitSemi nq).length then .error .multipleStatements
    else if nq.contains '(' && nq.contains ')' then
      match forbiddenKeywords.find? (fun kw => containsWholeWord nq kw.data) with
      | some kw => .error (.forbiddenKeywordSubquery (upperStr kw))
      | none => .ok ()
    else .ok ()

/-- `ValidateReadOnlyQuery` from `internal/commands/query.go`.  The Go code
computes the boolean `queryStartsWithAllowed` from the head keywords, lets
the pragma branch overwrite it or return the pragma error, and then fails
with the not-read-only error when it is still false; the conditional below
is that same decision tree (a query starting with `pragma` never starts
with an allowed head keyword). -/
def ValidateReadOnlyQuery (query : String) : Except QueryError Unit :=
  let nq := normalizeQuery query
  if nq.isEmpty then .error .emptyQuery
  else if (allowedHeads.map String.data).any (fun p => p.isPrefixOf nq) then
    keywordAndStatementChecks nq
  else if "pragma".data.isPrefixOf nq then
    if (allowedPragmas.map String.data).any (fun p => p.isPrefixOf nq) then
      keywordAndStatementChecks nq
    else .error .pragmaNotAllowed
  else .error .notReadOnly

deriving instance DecidableEq for Except

/-! ## Claim C5: the confidence-threshold boundary -/

/-- C5: with the default threshold 0.8, a five-row sample whose column
holds 4 integer values and 1 text value (exactly `threshold * N` matching
votes) is classified `Integer`, while 3 integer values and 2 text values
(one matching vote fewer than the boundary) yield `Text`. -/
theorem c5_confidence_threshold_boundary :
    detectColumnType [["1"], ["2"], ["3"], ["4"], ["abc"]] 0 5 =
      ColumnType.integer ∧
    detectColumnType [["1"], ["2"], ["3"], ["abc"], ["def"]] 0 5 =
      ColumnType.text := by
  decide

/-! ## Claim C7: forbidden-keyword scan precedes the statement count -/

/-- C7: `"SELECT * FROM logs; DROP TABLE logs;"` contains a forbidden
keyword and splits into more than two semicolon segments, and validation
reports `ForbiddenKeyword("DROP")` because the whole-text keyword scan
runs before the multiple-statement check. -/
theorem c7_forbidden_keyword_before_multiple_statements :
    ValidateReadOnlyQuery "SELECT * FROM logs; DROP TABLE logs;" =
      .error (.forbiddenKeyword "DROP") ∧
    2 < (splitSemi (normalizeQuery "SELECT * FROM logs; DROP TABLE logs;")).length := by
  decide

/-! ## Claim C9: value-assigning pragmas pass the head-matched whitelist -/

/-- C9: the pragma whitelist is matched by string head only, so the
state-modifying statements `PRAGMA user_version = 5` and
`PRAGMA schema_version = 5` both pass validation. -/
theorem c9_pragma_head_match_accepts_assignments :
    ValidateReadOnlyQuery "PRAGMA user_version = 5" = .ok () ∧
    ValidateReadOnlyQuery "PRAGMA schema_version = 5" = .ok () := by
  decide

/-! ## Claim C6: numeric timestamp ranges -/

/-- A literal layout token rejects any all-digit remainder when the literal
itself is not a digit. -/
theorem matchToks_lit_digits (c : Char) (ts : List Tok) (xs : List Char)
    (hall : xs.all isDigitChar = true) (hc : isDigitChar c = false) :
    matchToks (Tok.lit c :: ts) xs = false := by
  rw [matchToks]
  cases xs with
  | nil => simp
  | cons x r =>
    have hx : isDigitChar x = true :=
      List.all_eq_true.mp hall x (List.mem_cons_self x r)
    have hxc : ¬ ((x :: r).head? = some c) := by
      simp only [List.head?_cons, Option.some_inj]
      rintro rfl
      rw [hx] at hc
      cases hc
    rw [if_neg hxc]

/-- A digit field followed by a non-digit literal rejects every all-digit
input: whatever width the field takes, the literal faces a digit or the
end of the input. -/
theorem matchToks_digits_then_lit (lo hi : Nat) (c : Char) (ts : List Tok)
    (xs : List Char) (hall : xs.all isDigitChar = true)
    (hc : isDigitChar c = false) :
    matchToks (Tok.digits lo hi :: Tok.lit c :: ts) xs = false := by
  simp only [matchToks]
  rw [List.any_eq_false]
  intro w _ hw
  simp only [Bool.and_eq_true, decide_eq_true_eq] at hw
  have hmatch := hw.2
  have hdrop : (xs.drop w).all isDigitChar = true := by
    rw [List.all_eq_true] at hall ⊢
    intro x hx
    exact hall x (List.mem_of_mem_drop hx)
  have hfalse := matchToks_lit_digits c ts (xs.drop w) hdrop hc
  rw [matchToks] at hfalse
  rw [hfalse] at hmatch
  cases hmatch

/-- A digit field of positive minimum width rejects an input whose first
character is not a digit. -/
theorem matchToks_digits_head (lo hi : Nat) (ts : List Tok) (c : Char)
    (xs : List Char) (hlo : 1 ≤ lo) (hc : isDigitChar c = false) :
    matchToks (Tok.digits lo hi :: ts) (c :: xs) = false := by
  simp only [matchToks]
  rw [List.any_eq_false]
  intro w _ hw
  simp only [Bool.and_eq_true, decide_eq_true_eq] at hw
  obtain ⟨⟨⟨hlow, _⟩, htake⟩, _⟩ := hw
  cases w with
  | zero => omega
  | succ w2 =>
    rw [List.take_succ_cons, List.all_cons, Bool.and_eq_true] at htake
    rw [htake.1] at hc
    cases hc

/-- A letter field of positive minimum width rejects an input whose first
character is not a letter. -/
theorem matchToks_letters_head (lo hi : Nat) (ts : List Tok) (c : Char)
    (xs : List Char) (hlo : 1 ≤ lo) (hc : isAlphaChar c = false) :
    matchToks (Tok.letters lo hi :: ts) (c :: xs) = false := by
  simp only [matchToks]
  rw [List.any_eq_false]
  intro w _ hw
  simp only [Bool.and_eq_true, decide_eq_true_eq] at hw
  obtain ⟨⟨⟨hlow, _⟩, htake⟩, _⟩ := hw
  cases w with
  | zero => omega
  | succ w2 =>
    rw [List.take_succ_cons, List.all_cons, Bool.and_eq_true] at htake
    rw [htake.1] at hc
    cases hc

/-- A digit is not a letter. -/
theorem not_alpha_of_digit {c : Char} (h : isDigitChar c = true) :
    isAlphaChar c = false := by
  rw [isDigitChar, decide_eq_true_eq] at h
  rw [isAlphaChar, decide_eq_false_iff_not]
  omega

/-- Every timestamp layout rejects a nonempty all-digit input. -/
theorem timestampFormats_fail_digits (xs : List Char) (hne : xs ≠ [])
    (hall : xs.all isDigitChar = true) :
    (timestampFormats.any fun f => matchToks f xs) = false := by
  obtain ⟨c, r, rfl⟩ : ∃ c r, xs = c :: r := by
    cases xs with
    | nil => exact absurd rfl hne
    | cons c r => exact ⟨c, r, rfl⟩
  have hc : isDigitChar c = true :=
    List.all_eq_true.mp hall c (List.mem_cons_self c r)
  have hca : isAlphaChar c = false := not_alpha_of_digit hc
  simp only [timestampFormats, fmtRFC3339, fmtDateTimeSpace, fmtDateTimeT,
    fmtDateTimeMs, fmtSlash, fmtDate, fmtAnsicZone, fmtAnsic,
    List.cons_append, List.nil_append,
    List.any_cons, List.any_nil, Bool.or_eq_false_iff]
  refine ⟨?_, ?_, ?_, ?_, ?_, ?_, ?_, ?_, trivial⟩
  · exact matchToks_digits_then_lit _ _ _ _ _ hall (by decide)
  · exact matchToks_digits_then_lit _ _ _ _ _ hall (by decide)
  · exact matchToks_digits_then_lit _ _ _ _ _ hall (by decide)
  · exact matchToks_digits_then_lit _ _ _ _ _ hall (by decide)
  · exact matchToks_digits_then_lit _ _ _ _ _ hall (by decide)
  · exact matchToks_digits_then_lit _ _ _ _ _ hall (by decide)
  · exact matchToks_letters_head _ _ _ _ _ (by decide) hca
  · exact matchToks_letters_head _ _ _ _ _ (by decide) hca

/-- Every timestamp layout rejects an input whose first character is
neither a digit nor a letter (in particular a sign). -/
theorem timestampFormats_fail_symbol_head (c : Char) (xs : List Char)
    (hd : isDigitChar c = false) (ha : isAlphaChar c = false) :
    (timestampFormats.any fun f => matchToks f (c :: xs)) = false := by
  simp only [timestampFormats, fmtRFC3339, fmtDateTimeSpace, fmtDateTimeT,
    fmtDateTimeMs, fmtSlash, fmtDate, fmtAnsicZone, fmtAnsic,
    List.cons_append, List.nil_append,
    List.any_cons, List.any_nil, Bool.or_eq_false_iff]
  refine ⟨?_, ?_, ?_, ?_, ?_, ?_, ?_, ?_, trivial⟩
  · exact matchToks_digits_head _ _ _ _ _ (by decide) hd
  · exact matchToks_digits_head _ _ _ _ _ (by decide) hd
  · exact matchToks_digits_head _ _ _ _ _ (by decide) hd
  · exact matchToks_digits_head _ _ _ _ _ (by decide) hd
  · exact matchToks_digits_head _ _ _ _ _ (by decide) hd
  · exact matchToks_digits_head _ _ _ _ _ (by decide) hd
  · exact matchToks_letters_head _ _ _ _ _ (by decide) ha
  · exact matchToks_letters_head _ _ _ _ _ (by decide) ha

/-- A successful `parseInt64` leaves no layout match: the parsed text is an
optional sign followed by digits, which every layout rejects. -/
theorem timestampFormats_fail_of_parseInt64 (s : String) (n : Int)
    (h : parseInt64 s = some n) :
    (timestampFormats.any fun f => matchToks f s.data) = false := by
  rw [parseInt64] at h
  cases hs : s.data with
  | nil => rw [hs] at h; cases h
  | cons c rest =>
    rw [hs] at h
    by_cases hsign : c = '-' ∨ c = '+'
    · rcases hsign with rfl | rfl
      · exact timestampFormats_fail_symbol_head _ _ (by decide) (by decide)
      · exact timestampFormats_fail_symbol_head _ _ (by decide) (by decide)
    · have hds : (if c = '-' ∨ c = '+' then rest else c :: rest) = c :: rest :=
        if_neg hsign
      simp only [hds] at h
      split at h
      · next hcond =>
        exact timestampFormats_fail_digits (c :: rest) (List.cons_ne_nil c rest)
          hcond.2
      · cases h

/-- C6: for every string that parses as a base-10 64-bit integer `n`,
`isTimestamp` returns true iff `n` lies in the inclusive seconds range
[315532800, 2524608000] or the inclusive milliseconds range
[315532800000, 2524608000000]; integers outside both ranges are not
timestamps. -/
theorem c6_numeric_timestamp_iff_range (s : String) (n : Int)
    (h : parseInt64 s = some n) :
    isTimestamp s = true ↔
      ((315532800 ≤ n ∧ n ≤ 2524608000) ∨
        (315532800000 ≤ n ∧ n ≤ 2524608000000)) := by
  have hfmt := timestampFormats_fail_of_parseInt64 s n h
  rw [isTimestamp, h]
  by_cases hr : (315532800 ≤ n ∧ n ≤ 2524608000) ∨
      (315532800000 ≤ n ∧ n ≤ 2524608000000)
  · simp [hr]
  · simp [hr, hfmt]

/-- Witness for C6 at the input `"123"` named by the specification. -/
theorem c6_numeric_timestamp_iff_range_witness :
    parseInt64 "123" = some 123 ∧ isTimestamp "123" = false := by
  refine ⟨by decide, ?_⟩
  have h := c6_numeric_timestamp_iff_range "123" 123 (by decide)
  rw [Bool.eq_false_iff]
  intro ht
  have hr := h.mp ht
  have : ¬ ((315532800 ≤ (123 : Int) ∧ (123 : Int) ≤ 2524608000) ∨
      (315532800000 ≤ (123 : Int) ∧ (123 : Int) ≤ 2524608000000)) := by decide
  exact this hr

/-! ## Claim C8: integer priority and boolean words -/

/-- A character that lowercases to a lowercase letter has code at least
65: it is that letter or its uppercase form. -/
theorem le65_of_lowerChar (c d : Char) (h : lowerChar c = d)
    (hd : 97 ≤ d.toNat) : 65 ≤ c.toNat := by
  rw [lowerChar] at h
  by_cases hc : 65 ≤ c.toNat ∧ c.toNat ≤ 90
  · exact hc.1
  · rw [if_neg hc] at h
    subst h
    omega

/-- A string headed by a character of code at least 65 parses neither as an
integer nor as a float, provided its lowercasing is none of the special
float words. -/
theorem notNumeric_of_alpha_head (s : String) (c0 : Char) (r : List Char)
    (hs : s.data = c0 :: r) (h65 : 65 ≤ c0.toNat)
    (hni : lowerStr s.data ≠ "inf".data)
    (hnin : lowerStr s.data ≠ "infinity".data)
    (hnn : lowerStr s.data ≠ "nan".data) :
    parseInt64 s = none ∧ parseFloatOk s = false := by
  have hsign : ¬ (c0 = '-' ∨ c0 = '+') := by
    rintro (rfl | rfl) <;> exact absurd h65 (by decide)
  have hcd : isDigitChar c0 = false := by
    rw [isDigitChar, decide_eq_false_iff_not]
    omega
  constructor
  · rw [parseInt64, hs]
    simp only [if_neg hsign]
    have : ¬ (c0 :: r ≠ [] ∧ (c0 :: r).all isDigitChar) := by
      rintro ⟨-, hall⟩
      rw [List.all_cons, Bool.and_eq_true] at hall
      rw [hall.1] at hcd
      cases hcd
    rw [if_neg this]
  · have hsign2 : ¬ (c0 = '+' ∨ c0 = '-') := by
      rintro (rfl | rfl) <;> exact absurd h65 (by decide)
    rw [parseFloatOk, hs]
    simp only [if_neg hsign2]
    rw [hs] at hni hnin hnn
    have e1 : (lowerStr (c0 :: r) == "inf".data) = false :=
      beq_eq_false_iff_ne.mpr hni
    have e2 : (lowerStr (c0 :: r) == "infinity".data) = false :=
      beq_eq_false_iff_ne.mpr hnin
    have e3 : (lowerStr (c0 :: r) == "nan".data) = false :=
      beq_eq_false_iff_ne.mpr hnn
    have hhex : ¬ ((c0 :: r).head? = some '0' ∧
        ((c0 :: r).tail.head? = some 'x' ∨ (c0 :: r).tail.head? = some 'X')) := by
      rintro ⟨h0, -⟩
      rw [List.head?_cons, Option.some_inj] at h0
      subst h0
      exact absurd h65 (by decide)
    have hdot : ¬ ((c0 :: r).head? = some '.') := by
      rw [List.head?_cons, Option.some_inj]
      rintro rfl
      exact absurd h65 (by decide)
    have hdec : decMantissaExp (c0 :: r) = false := by
      rw [decMantissaExp, splitDigits]
      simp only [List.takeWhile_cons, List.dropWhile_cons, hcd]
      simp
      rintro rfl
      exact absurd h65 (by decide)
    rw [e1, e2, e3, if_neg hhex, hdec]
    rfl

/-- C8: `inferValueType` classifies `"0"` and `"1"` as `Integer`, never
`Boolean` (the integer parse is tried before the boolean check), and
classifies every non-numeric value case-insensitively equal to one of
`true`, `false`, `yes`, `no`, `y`, `n` as `Boolean`. -/
theorem c8_integer_priority_boolean_words :
    inferValueType "0" = ColumnType.integer ∧
    inferValueType "1" = ColumnType.integer ∧
    ∀ s : String,
      (lowerStr s.data = "true".data ∨ lowerStr s.data = "false".data ∨
        lowerStr s.data = "yes".data ∨ lowerStr s.data = "no".data ∨
        lowerStr s.data = "y".data ∨ lowerStr s.data = "n".data) →
      inferValueType s = ColumnType.boolean := by
  refine ⟨by decide, by decide, ?_⟩
  intro s hs
  have hb : isBoolean s = true := by
    rw [isBoolean]
    rcases hs with h | h | h | h | h | h <;> simp [h]
  obtain ⟨c0, r, hsd, h65⟩ : ∃ c0 r, s.data = c0 :: r ∧ 65 ≤ c0.toNat := by
    rcases hs with h | h | h | h | h | h <;>
    · cases hsd : s.data with
      | nil => rw [hsd] at h; cases h
      | cons c0 r =>
        rw [hsd, lowerStr, List.map_cons] at h
        injection h with h1 _
        exact ⟨c0, r, rfl, le65_of_lowerChar _ _ h1 (by decide)⟩
  have hni : lowerStr s.data ≠ "inf".data := by
    rcases hs with h | h | h | h | h | h <;> · rw [h]; decide
  have hnin : lowerStr s.data ≠ "infinity".data := by
    rcases hs with h | h | h | h | h | h <;> · rw [h]; decide
  have hnn : lowerStr s.data ≠ "nan".data := by
    rcases hs with h | h | h | h | h | h <;> · rw [h]; decide
  obtain ⟨hpi, hpf⟩ := notNumeric_of_alpha_head s c0 r hsd h65 hni hnin hnn
  rw [inferValueType, hpi]
  rw [hpf, hb]
  rfl

/-- Witness for C8 at the concrete boolean word `"YES"`. -/
theorem c8_integer_priority_boolean_words_witness :
    inferValueType "YES" = ColumnType.boolean :=
  c8_integer_priority_boolean_words.2.2 "YES" (by decide)

/-! ## Claim C10: duplicate `id` column in the generated DDL -/

/-- The column name declared by a rendered column definition: the text up
to the first space. -/
def declaredName (d : String) : String :=
  ⟨d.data.takeWhile fun x => decide (¬ x = ' ')⟩

/-- C10: `GenerateCreateTableSQL` unconditionally prepends the synthetic
column `id INTEGER PRIMARY KEY AUTOINCREMENT`, so every schema that already
contains a column named `id` produces a column-definition list declaring
(at least) two columns named `id` — the duplicate column name that makes
the storage engine reject the statement. -/
theorem c10_duplicate_id_column (ts : TableSchema)
    (h : ∃ c ∈ ts.Columns, c.Name = "id") :
    2 ≤ (createTableColumns ts).countP fun d => declaredName d == "id" := by
  obtain ⟨c, hc, hname⟩ := h
  rw [createTableColumns, List.countP_cons, if_pos (by decide)]
  have hmem : colDef c ∈ ts.Columns.map colDef := List.mem_map_of_mem colDef hc
  have hp : (declaredName (colDef c) == "id") = true := by
    rw [colDef, hname, declaredName]
    have hd : ("id" ++ " " ++ c.Typ.SQLType ++
        (if c.Nullable then "" else " NOT NULL")).data =
        'i' :: 'd' :: ' ' :: (c.Typ.SQLType ++
          (if c.Nullable then "" else " NOT NULL")).data := by
      rw [String.data_append, String.data_append, String.data_append]
      rfl
    rw [hd]
    rfl
  have hpos : 0 < (ts.Columns.map colDef).countP fun d => declaredName d == "id" :=
    List.countP_pos_iff.mpr ⟨colDef c, hmem, hp⟩
  omega

/-- Witness for C10: a one-column schema whose CSV header was `id`. -/
theorem c10_duplicate_id_column_witness :
    2 ≤ (createTableColumns
        { Name := "t",
          Columns := [{ Name := "id", Typ := ColumnType.integer,
                        Nullable := false, Index := true }] }).countP
      fun d => declaredName d == "id" :=
  c10_duplicate_id_column _
    ⟨{ Name := "id", Typ := ColumnType.integer, Nullable := false, Index := true },
      List.mem_singleton.mpr rfl, rfl⟩

/-! ## Claim C1: the sanitized-name invariant -/

/-- Membership of the class `[a-z0-9_]` claimed by the specification. -/
def isSqlNameChar (c : Char) : Bool :=
  decide ((97 ≤ c.toNat ∧ c.toNat ≤ 122) ∨ (48 ≤ c.toNat ∧ c.toNat ≤ 57) ∨
    c.toNat = 95)

/-- What `sanitizeColumnName` actually guarantees of a character: not an
ASCII uppercase letter, and none of the five replaced characters space,
`-`, `.`, `/`, `\` (codes 32, 45, 46, 47, 92). -/
def isSanitizedChar (c : Char) : Bool :=
  decide (¬ (65 ≤ c.toNat ∧ c.toNat ≤ 90) ∧ c.toNat ≠ 32 ∧ c.toNat ≠ 45 ∧
    c.toNat ≠ 46 ∧ c.toNat ≠ 47 ∧ c.toNat ≠ 92)

/-- Whether a string starts with a decimal digit. -/
def leadingDigit (s : String) : Bool :=
  match s.data with
  | [] => false
  | c :: _ => decide (48 ≤ c.toNat ∧ c.toNat ≤ 57)

/-- C1 counterexample: the header `a!` passes through `DetectSchema`
unchanged — `!` is outside `[a-z0-9_]`, so the claimed character-set
invariant fails. -/
theorem c1_sanitized_name_charset_counterexample :
    DetectSchema ["a!"] [["x"]] "t" =
      Except.ok ⟨"t", [⟨"a!", ColumnType.text, false, false⟩]⟩ ∧
    sanitizeColumnName "a!" = "a!" ∧
    (sanitizeColumnName "a!").data.all isSqlNameChar = false := by
  decide


/-- A character of the output of `replaceChar old` is the underscore or an
input character different from `old`. -/
theorem mem_replaceChar_elim {old : Char} {l : List Char} {x : Char}
    (hx : x ∈ replaceChar old l) : x = '_' ∨ (x ∈ l ∧ x ≠ old) := by
  rw [replaceChar] at hx
  obtain ⟨c, hc, hfc⟩ := List.mem_map.mp hx
  by_cases hco : c = old
  · rw [if_pos hco] at hfc
    exact Or.inl hfc.symm
  · rw [if_neg hco] at hfc
    exact Or.inr ⟨hfc ▸ hc, hfc ▸ hco⟩

/-- After the five replacements, no character carries one of the five
replaced code points (32, 45, 46, 47, 92). -/
theorem mem_after_replacements {l : List Char} {x : Char}
    (hx : x ∈ replaceChar '\\' (replaceChar '/' (replaceChar '.'
      (replaceChar '-' (replaceChar ' ' l))))) :
    x.toNat ≠ 32 ∧ x.toNat ≠ 45 ∧ x.toNat ≠ 46 ∧ x.toNat ≠ 47 ∧
      x.toNat ≠ 92 := by
  rcases mem_replaceChar_elim hx with rfl | ⟨hx1, h92⟩
  · refine ⟨by decide, by decide, by decide, by decide, by decide⟩
  rcases mem_replaceChar_elim hx1 with rfl | ⟨hx2, h47⟩
  · refine ⟨by decide, by decide, by decide, by decide, by decide⟩
  rcases mem_replaceChar_elim hx2 with rfl | ⟨hx3, h46⟩
  · refine ⟨by decide, by decide, by decide, by decide, by decide⟩
  rcases mem_replaceChar_elim hx3 with rfl | ⟨hx4, h45⟩
  · refine ⟨by decide, by decide, by decide, by decide, by decide⟩
  rcases mem_replaceChar_elim hx4 with rfl | ⟨_, h32⟩
  · refine ⟨by decide, by decide, by decide, by decide, by decide⟩
  refine ⟨fun hn => h32 (charToNatInj (hn.trans (by decide))),
    fun hn => h45 (charToNatInj (hn.trans (by decide))),
    fun hn => h46 (charToNatInj (hn.trans (by decide))),
    fun hn => h47 (charToNatInj (hn.trans (by decide))),
    fun hn => h92 (charToNatInj (hn.trans (by decide)))⟩

/-- Lowercasing a character free of the five replaced code points yields a
character that is sanitized in the sense of `isSanitizedChar`. -/
theorem lowerChar_sanitized {d : Char} (h32 : d.toNat ≠ 32)
    (h45 : d.toNat ≠ 45) (h46 : d.toNat ≠ 46) (h47 : d.toNat ≠ 47)
    (h92 : d.toNat ≠ 92) : isSanitizedChar (lowerChar d) = true := by
  rw [lowerChar]
  by_cases hu : 65 ≤ d.toNat ∧ d.toNat ≤ 90
  · rw [if_pos hu, isSanitizedChar, decide_eq_true_eq,
      toNat_ofNat_valid (by omega)]
    omega
  · rw [if_neg hu, isSanitizedChar, decide_eq_true_eq]
    omega

/-- Every character produced by the replacement-and-lowercase pipeline is
sanitized. -/
theorem sanitized_pipeline_all (l : List Char) :
    (lowerStr (replaceChar '\\' (replaceChar '/' (replaceChar '.'
      (replaceChar '-' (replaceChar ' ' l)))))).all isSanitizedChar = true := by
  rw [List.all_eq_true]
  intro x hx
  rw [lowerStr] at hx
  obtain ⟨y, hy, rfl⟩ := List.mem_map.mp hx
  obtain ⟨h32, h45, h46, h47, h92⟩ := mem_after_replacements hy
  exact lowerChar_sanitized h32 h45 h46 h47 h92

/-- C1 amended: for every header, the sanitized name is non-empty, holds
no uppercase ASCII letter and none of the five replaced characters, and
does not begin with a decimal digit (digit-leading names get the `col_`
prefix); characters outside `[a-z0-9_]` other than those five — such as
`!` — survive, so the claimed `[a-z0-9_]` character-set invariant is the
part that fails. -/
theorem c1_sanitized_name_guarantees (header : String) :
    (sanitizeColumnName header).data ≠ [] ∧
    (sanitizeColumnName header).data.all isSanitizedChar = true ∧
    leadingDigit (sanitizeColumnName header) = false := by
  have hall := sanitized_pipeline_all header.data
  rw [sanitizeColumnName]
  generalize hG : lowerStr (replaceChar '\\' (replaceChar '/' (replaceChar '.'
    (replaceChar '-' (replaceChar ' ' header.data))))) = L at hall ⊢
  cases L with
  | nil => exact ⟨by decide, by decide, by decide⟩
  | cons c rest =>
    rw [List.all_cons, Bool.and_eq_true] at hall
    by_cases hdig : 48 ≤ c.toNat ∧ c.toNat ≤ 57
    · simp only [if_pos hdig]
      have hne : ("col_".data ++ c :: rest).isEmpty = false := rfl
      rw [hne]
      refine ⟨by simp, ?_, ?_⟩
      · show ("col_".data ++ c :: rest).all isSanitizedChar = true
        rw [List.all_append, List.all_cons]
        simp [hall.1, hall.2]
        decide
      · rfl
    · simp only [if_neg hdig]
      have hne : (c :: rest).isEmpty = false := rfl
      rw [hne]
      refine ⟨by simp, ?_, ?_⟩
      · show (c :: rest).all isSanitizedChar = true
        rw [List.all_cons, Bool.and_eq_true]
        exact ⟨hall.1, hall.2⟩
      · show leadingDigit ⟨c :: rest⟩ = false
        rw [leadingDigit]
        exact decide_eq_false hdig

/-- Witness for C1 at the header `9 Grade-A.x`. -/
theorem c1_sanitized_name_guarantees_witness :
    (sanitizeColumnName "9 Grade-A.x").data ≠ [] ∧
    (sanitizeColumnName "9 Grade-A.x").data.all isSanitizedChar = true ∧
    leadingDigit (sanitizeColumnName "9 Grade-A.x") = false :=
  c1_sanitized_name_guarantees "9 Grade-A.x"

/-! ## Claim C3: short rows in `detectColumnType` -/

/-- C3 counterexample: with headers two columns wide, a short *first* row
makes `detectColumnType` return `Text` for column 1 outright, although the
remaining sampled row votes `Integer` — removing the short row changes the
result, so a short first row does more than cast no vote. -/
theorem c3_short_first_row_counterexample :
    detectColumnType [["1"], ["2", "3"]] 1 2 = ColumnType.text ∧
    detectColumnType [["2", "3"]] 1 1 = ColumnType.integer := by
  decide

/-- C3 amended: a sampled row with fewer fields than the column position
casts no vote only when it is not the first row — removing such a row
(with the sample size shrunk accordingly) never changes the result.  A
short *first* row instead makes the whole column `Text` immediately,
regardless of the other rows' votes. -/
theorem c3_short_row_vote_behavior :
    (∀ (r0 : List String) (rest : List (List String)) (i n : Nat),
        r0.length ≤ i →
        detectColumnType (r0 :: rest) i n = ColumnType.text) ∧
    (∀ (pre post : List (List String)) (r : List String) (i : Nat),
        pre ≠ [] → r.length ≤ i →
        detectColumnType (pre ++ r :: post) i (pre.length + 1 + post.length) =
          detectColumnType (pre ++ post) i (pre.length + post.length)) := by
  constructor
  · intro r0 rest i n h
    rw [detectColumnType, if_pos h]
  · intro pre post r i hpre hri
    obtain ⟨p0, pre2, rfl⟩ : ∃ p0 pre2, pre = p0 :: pre2 := by
      cases pre with
      | nil => exact absurd rfl hpre
      | cons p0 pre2 => exact ⟨p0, pre2, rfl⟩
    have hvote : rowVote i r = none := by
      rw [rowVote, List.get?_eq_none.mpr hri]
    have hv : columnVotes ((p0 :: pre2) ++ r :: post) i
        ((p0 :: pre2).length + 1 + post.length) =
        columnVotes ((p0 :: pre2) ++ post) i
          ((p0 :: pre2).length + post.length) := by
      rw [columnVotes, columnVotes]
      have h1 : ((p0 :: pre2) ++ r :: post).take
          ((p0 :: pre2).length + 1 + post.length) =
          (p0 :: pre2) ++ r :: post := by
        apply List.take_of_length_le
        simp
        omega
      have h2 : ((p0 :: pre2) ++ post).take
          ((p0 :: pre2).length + post.length) = (p0 :: pre2) ++ post := by
        apply List.take_of_length_le
        simp
        omega
      rw [h1, h2, List.filterMap_append, List.filterMap_append,
        List.filterMap_cons_none hvote]
    rw [List.cons_append, List.cons_append, detectColumnType, detectColumnType]
    by_cases hp : p0.length ≤ i
    · rw [if_pos hp, if_pos hp]
    · rw [if_neg hp, if_neg hp]
      rw [List.cons_append, List.cons_append] at hv
      rw [hv]

/-- Witness for C3: the first part at the short first row of the
counterexample input, the second at a short row appended after a
non-short first row. -/
theorem c3_short_row_vote_behavior_witness :
    detectColumnType [["1"], ["2", "3"]] 1 2 = ColumnType.text ∧
    detectColumnType ([["2", "3"]] ++ ["x"] :: []) 1 2 =
      detectColumnType ([["2", "3"]] ++ []) 1 1 :=
  ⟨c3_short_row_vote_behavior.1 ["1"] [["2", "3"]] 1 2 (by decide),
    c3_short_row_vote_behavior.2 [["2", "3"]] [] ["x"] 1 (by decide) (by decide)⟩

/-! ## Claim C2: word-boundary keyword matching

The supporting lemmas below show that for the bare query
`nonword ++ keyword ++ nonword` the normalization pipeline leaves the text
essentially unchanged (up to whitespace trimming), so validation fails at
the statement-head gate — with `NotReadOnly`, not `ForbiddenKeyword` —
while the whole-word scan itself does match the keyword. -/

/-- A lowercase letter: codes 97-122. -/
def isLowerLetter (c : Char) : Bool := decide (97 ≤ c.toNat ∧ c.toNat ≤ 122)

/-- `lowerChar` fixes anything that is not an uppercase ASCII letter. -/
theorem lowerChar_eq_self {c : Char} (h : ¬ (65 ≤ c.toNat ∧ c.toNat ≤ 90)) :
    lowerChar c = c := if_neg h

/-- `lowerStr` fixes a list free of uppercase ASCII letters. -/
theorem lowerStr_eq_self {l : List Char}
    (h : ∀ c ∈ l, ¬ (65 ≤ c.toNat ∧ c.toNat ≤ 90)) : lowerStr l = l := by
  rw [lowerStr]
  induction l with
  | nil => rfl
  | cons c rest ih =>
    rw [List.map_cons, lowerChar_eq_self (h c (List.mem_cons_self c rest)),
      ih fun x hx => h x (List.mem_cons_of_mem c hx)]

/-- A non-word character is not an uppercase ASCII letter. -/
theorem not_upper_of_not_word {c : Char} (h : isWordChar c = false) :
    ¬ (65 ≤ c.toNat ∧ c.toNat ≤ 90) := by
  rw [isWordChar, Bool.or_eq_false_iff, Bool.or_eq_false_iff] at h
  have := h.1.2
  rw [isAlphaChar, decide_eq_false_iff_not] at this
  intro hu
  exact this (Or.inl hu)

/-- A lowercase letter is not an uppercase ASCII letter. -/
theorem not_upper_of_lower {c : Char} (h : isLowerLetter c = true) :
    ¬ (65 ≤ c.toNat ∧ c.toNat ≤ 90) := by
  rw [isLowerLetter, decide_eq_true_eq] at h
  omega

/-- Adjacent pairs in `c1 :: kw ++ [c2]` always include a character of
`kw`, so any relation holding whenever either side is a lowercase letter
holds along the whole list. -/
theorem chain'_sandwich (R : Char → Char → Prop) (c1 c2 : Char)
    (kw : List Char) (hk : kw ≠ []) (hl : ∀ c ∈ kw, isLowerLetter c = true)
    (hR : ∀ a b, isLowerLetter a = true ∨ isLowerLetter b = true → R a b) :
    (c1 :: kw ++ [c2]).Chain' R := by
  have hkw : kw.Chain' R :=
    (List.pairwise_of_forall_mem_list
      fun a ha _ _ => hR a _ (Or.inl (hl a ha))).chain'
  have htail : (kw ++ [c2]).Chain' R := by
    rw [List.chain'_append]
    refine ⟨hkw, List.chain'_singleton c2, ?_⟩
    intro x hx y hy
    have hxm : x ∈ kw := by
      obtain ⟨hne2, rfl⟩ := List.mem_getLast?_eq_getLast hx
      exact List.getLast_mem hne2
    exact hR _ _ (Or.inl (hl x hxm))
  show (([c1] ++ kw) ++ [c2]).Chain' R
  rw [List.append_assoc, List.chain'_append]
  refine ⟨List.chain'_singleton c1, htail, ?_⟩
  intro x hx y hy
  rw [List.getLast?_singleton, Option.mem_def, Option.some_inj] at hx
  have hym : y ∈ kw := by
    obtain ⟨k, kr, rfl⟩ : ∃ k kr, kw = k :: kr := by
      cases kw with
      | nil => exact absurd rfl hk
      | cons k kr => exact ⟨k, kr, rfl⟩
    rw [List.cons_append, List.head?_cons, Option.mem_def, Option.some_inj] at hy
    rw [hy]
    exact List.mem_cons_self y kr
  exact hR _ _ (Or.inr (hl y hym))

/-- `trimChars` yields a contiguous run of its input. -/
theorem trimChars_contig (l : List Char) : trimChars l <:+: l := by
  rw [trimChars]
  have h1 : l.dropWhile isGoSpace <:+ l := List.dropWhile_suffix _
  have h2 : ((l.dropWhile isGoSpace).reverse.dropWhile isGoSpace).reverse <+:
      l.dropWhile isGoSpace := by
    rw [← List.reverse_reverse (l.dropWhile isGoSpace)]
    rw [listReversePrefixIff, List.reverse_reverse]
    exact List.dropWhile_suffix _
  exact h2.isInfix.trans h1.isInfix

/-- `Chain'` restricted to `trimChars` output. -/
theorem chain'_trimChars {R : Char → Char → Prop} {l : List Char}
    (h : l.Chain' R) : (trimChars l).Chain' R :=
  h.infix (trimChars_contig l)

/-- One step of the line-comment scan outside a comment. -/
theorem stripLineAux_false_cons (c : Char) (rest : List Char)
    (h : ¬ (c = '-' ∧ rest.head? = some '-')) :
    stripLineAux false (c :: rest) = c :: stripLineAux false rest := by
  rw [stripLineAux, if_neg h]

/-- `stripLine` fixes a list with no adjacent `--`. -/
theorem stripLine_id {l : List Char}
    (h : l.Chain' fun a b => ¬ (a = '-' ∧ b = '-')) : stripLine l = l := by
  rw [stripLine]
  induction l with
  | nil => rfl
  | cons c rest ih =>
    have hh : ¬ (c = '-' ∧ rest.head? = some '-') := by
      rintro ⟨rfl, hx⟩
      cases rest with
      | nil => cases hx
      | cons c2 r2 =>
        rw [List.head?_cons, Option.some_inj] at hx
        exact (List.chain'_cons.mp h).1 ⟨rfl, hx⟩
    rw [stripLineAux_false_cons c rest hh]
    rw [ih h.tail]

/-- `stripBlock` fixes a list with no adjacent `/*`. -/
theorem stripBlock_id {l : List Char}
    (h : l.Chain' fun a b => ¬ (a = '/' ∧ b = '*')) : stripBlock l = l := by
  induction l with
  | nil => rfl
  | cons c rest ih =>
    have hh : ¬ (c = '/' ∧ rest.head? = some '*') := by
      rintro ⟨rfl, hx⟩
      cases rest with
      | nil => cases hx
      | cons c2 r2 =>
        rw [List.head?_cons, Option.some_inj] at hx
        exact (List.chain'_cons.mp h).1 ⟨rfl, hx⟩
    rw [stripBlock_cons, if_neg hh, ih h.tail]

/-- `dropWhile` fixes a list whose head fails the predicate. -/
theorem dropWhile_eq_self_of_head (p : Char → Bool) (l : List Char)
    (h : ∀ c ∈ l.head?, p c = false) : l.dropWhile p = l := by
  cases l with
  | nil => rfl
  | cons a r =>
    rw [List.dropWhile_cons, if_neg]
    simp [h a (by rw [List.head?_cons]; rfl)]

/-- Trimming `c1 :: kw ++ [c2]` for a whitespace-free nonempty `kw` keeps
`kw` intact, removing at most the outer characters. -/
theorem trim_sandwich (c1 c2 : Char) (kw : List Char) (hk : kw ≠ [])
    (hks : ∀ c ∈ kw, isGoSpace c = false) :
    ∃ A B, trimChars (c1 :: kw ++ [c2]) = A ++ (kw ++ B) ∧
      (A = [] ∨ (A = [c1] ∧ isGoSpace c1 = false)) ∧
      (B = [] ∨ (B = [c2] ∧ isGoSpace c2 = false)) := by
  obtain ⟨k, kr, rfl⟩ : ∃ k kr, kw = k :: kr := by
    cases kw with
    | nil => exact absurd rfl hk
    | cons k kr => exact ⟨k, kr, rfl⟩
  obtain ⟨k2, krr, hrev⟩ : ∃ k2 krr, (k :: kr).reverse = k2 :: krr := by
    cases hr : (k :: kr).reverse with
    | nil => exact absurd (List.reverse_eq_nil_iff.mp hr) (List.cons_ne_nil k kr)
    | cons a b => exact ⟨a, b, rfl⟩
  have hk2 : isGoSpace k2 = false :=
    hks k2 (List.mem_reverse.mp (hrev ▸ List.mem_cons_self k2 krr))
  have hfront : ∃ A, (c1 :: (k :: kr) ++ [c2]).dropWhile isGoSpace =
      A ++ ((k :: kr) ++ [c2]) ∧
      (A = [] ∨ (A = [c1] ∧ isGoSpace c1 = false)) := by
    by_cases s1 : isGoSpace c1
    · refine ⟨[], ?_, Or.inl rfl⟩
      rw [List.cons_append, List.dropWhile_cons, if_pos s1,
        List.cons_append, List.dropWhile_cons, if_neg]
      · simp
      · simp [hks k (List.mem_cons_self k kr)]
    · refine ⟨[c1], ?_, Or.inr ⟨rfl, Bool.eq_false_iff.mpr s1⟩⟩
      rw [List.cons_append, List.dropWhile_cons, if_neg]
      · simp
      · simp [s1]
  obtain ⟨A, hA, hAor⟩ := hfront
  have hback : ∃ B, ((A ++ ((k :: kr) ++ [c2])).reverse.dropWhile
      isGoSpace).reverse = A ++ ((k :: kr) ++ B) ∧
      (B = [] ∨ (B = [c2] ∧ isGoSpace c2 = false)) := by
    have hsplit : A ++ ((k :: kr) ++ [c2]) = (A ++ (k :: kr)) ++ [c2] :=
      (List.append_assoc A (k :: kr) [c2]).symm
    by_cases s2 : isGoSpace c2
    · refine ⟨[], ?_, Or.inl rfl⟩
      rw [hsplit, List.reverse_append, List.reverse_singleton,
        List.singleton_append, List.dropWhile_cons, if_pos s2,
        List.reverse_append, hrev, List.cons_append, List.dropWhile_cons,
        if_neg]
      · rw [← List.cons_append, ← hrev, ← List.reverse_append,
          List.reverse_reverse, List.append_nil]
      · simp [hk2]
    · refine ⟨[c2], ?_, Or.inr ⟨rfl, Bool.eq_false_iff.mpr s2⟩⟩
      rw [hsplit, List.reverse_append, List.reverse_singleton,
        List.singleton_append, List.dropWhile_cons, if_neg]
      · rw [List.reverse_cons, List.reverse_reverse, List.append_assoc]
      · simp [s2]
  obtain ⟨B, hB, hBor⟩ := hback
  refine ⟨A, B, ?_, hAor, hBor⟩
  rw [trimChars, hA, hB]

/-- `trimChars` fixes a list whose first and last characters are not
whitespace. -/
theorem trimChars_eq_self (l : List Char)
    (hh : ∀ c ∈ l.head?, isGoSpace c = false)
    (hl : ∀ c ∈ l.getLast?, isGoSpace c = false) : trimChars l = l := by
  rw [trimChars, dropWhile_eq_self_of_head _ _ hh,
    dropWhile_eq_self_of_head _ _ ?hrev, List.reverse_reverse]
  case hrev =>
    intro c hc
    apply hl
    rw [List.head?_reverse] at hc
    exact hc

/-- A lowercase letter is not whitespace. -/
theorem not_space_of_lower {c : Char} (h : isLowerLetter c = true) :
    isGoSpace c = false := by
  rw [isLowerLetter, decide_eq_true_eq] at h
  rw [isGoSpace, decide_eq_false_iff_not]
  omega

/-- A two-character mismatch at the head survives any continuation: if the
first two characters of `p` are no head of `l` and `l` holds at least two
characters, `p` heads no extension of `l` either. -/
theorem isPrefixOf_false_of_take2 (p l B : List Char) (h2 : 2 ≤ l.length)
    (hmm : (p.take 2).isPrefixOf l = false) :
    p.isPrefixOf (l ++ B) = false := by
  rw [Bool.eq_false_iff] at hmm ⊢
  intro hT
  apply hmm
  rw [listIsPrefixOfIff] at hT ⊢
  have h2p : p.take 2 <+: l ++ B := (listTakePrefixOf 2 p).trans hT
  have hlen : (p.take 2).length ≤ l.length := by
    rw [List.length_take]
    omega
  obtain ⟨t, ht⟩ := h2p
  have hval : p.take 2 = (l ++ B).take (p.take 2).length := by
    rw [← ht, List.take_left]
  rw [List.take_append_of_le_length hlen] at hval
  rw [hval]
  exact listTakePrefixOf _ l

/-- A prefix check fails at the very first character when the candidate
head is a word character and the text head is not. -/
theorem isPrefixOf_false_of_head_ne (a : Char) (l : List Char) (b : Char)
    (m : List Char) (h : a ≠ b) : (a :: l).isPrefixOf (b :: m) = false := by
  rw [Bool.eq_false_iff]
  intro hT
  rw [listIsPrefixOfIff, List.cons_prefix_cons] at hT
  exact h hT.1

/-- Facts about the forbidden keywords, checked by evaluation: each is a
nonempty all-lowercase-letter word of length at least 2 whose first two
characters differ from those of every allowed statement head and of
`pragma`. -/
theorem forbiddenKeywords_facts : ∀ kw ∈ forbiddenKeywords,
    kw.data ≠ [] ∧ (∀ c ∈ kw.data, isLowerLetter c = true) ∧
    2 ≤ kw.data.length ∧
    (∀ p ∈ "pragma" :: allowedHeads,
      ((p.data.take 2).isPrefixOf kw.data) = false) := by
  decide

/-- C2 counterexample: for the bare query ` drop ` (a non-word character,
a forbidden keyword, a non-word character), validation fails with
`NotReadOnly` — the allowed-head gate runs before the keyword scan — not
with `ForbiddenKeyword("DROP")` as claimed. -/
theorem c2_bare_keyword_counterexample :
    ValidateReadOnlyQuery " drop " = .error .notReadOnly ∧
    ValidateReadOnlyQuery " drop " ≠
      .error (.forbiddenKeyword "DROP") := by
  decide

/-- C2 amended: for every forbidden keyword `k`, the query formed as
`non-word ++ k ++ non-word` fails — but with `NotReadOnly`, because the
allowed-head gate precedes the keyword scan; the whole-word scan itself
does find `k` between any two non-word characters (so word-boundary
matching is as described); and the query
`SELECT * FROM t WHERE u='dropbox_user'` passes: `dropbox_user` never
matches `drop`. -/
theorem c2_word_boundary_scan_and_head_gate :
    (∀ kw ∈ forbiddenKeywords, ∀ c1 c2 : Char,
        isWordChar c1 = false → isWordChar c2 = false →
        ValidateReadOnlyQuery ⟨c1 :: kw.data ++ [c2]⟩ =
          .error .notReadOnly) ∧
    (∀ kw ∈ forbiddenKeywords, ∀ c1 c2 : Char,
        isWordChar c1 = false → isWordChar c2 = false →
        containsWholeWord (c1 :: kw.data ++ [c2]) kw.data = true) ∧
    ValidateReadOnlyQuery "SELECT * FROM t WHERE u='dropbox_user'" =
      .ok () := by
  refine ⟨?_, ?_, by decide⟩
  · intro kw hkw c1 c2 h1 h2
    obtain ⟨hne, hlet, hlen2, hpref⟩ := forbiddenKeywords_facts kw hkw
    obtain ⟨k, kr, hkcons⟩ : ∃ k kr, kw.data = k :: kr := by
      cases hk : kw.data with
      | nil => exact absurd hk hne
      | cons k kr => exact ⟨k, kr, rfl⟩
    have hlower : lowerStr (c1 :: kw.data ++ [c2]) = c1 :: kw.data ++ [c2] := by
      apply lowerStr_eq_self
      intro c hc
      rcases List.mem_cons.mp hc with rfl | hc2
      · exact not_upper_of_not_word h1
      · rcases List.mem_append.mp hc2 with hc3 | hc3
        · exact not_upper_of_lower (hlet c hc3)
        · rw [List.mem_singleton] at hc3
          subst hc3
          exact not_upper_of_not_word h2
    obtain ⟨A, B, htrimEq, hAor, hBor⟩ :=
      trim_sandwich c1 c2 kw.data hne fun c hc => not_space_of_lower (hlet c hc)
    have hRD : ∀ a b : Char,
        isLowerLetter a = true ∨ isLowerLetter b = true →
        ¬ (a = '-' ∧ b = '-') := by
      rintro a b hor ⟨rfl, rfl⟩
      rcases hor with h | h <;>
        · rw [isLowerLetter, decide_eq_true_eq] at h
          exact absurd h (by decide)
    have hRS : ∀ a b : Char,
        isLowerLetter a = true ∨ isLowerLetter b = true →
        ¬ (a = '/' ∧ b = '*') := by
      rintro a b hor ⟨rfl, rfl⟩
      rcases hor with h | h <;>
        · rw [isLowerLetter, decide_eq_true_eq] at h
          exact absurd h (by decide)
    have hchD := chain'_trimChars (chain'_sandwich _ c1 c2 kw.data hne hlet hRD)
    have hchS := chain'_trimChars (chain'_sandwich _ c1 c2 kw.data hne hlet hRS)
    rw [htrimEq] at hchD hchS
    have hnq : normalizeQuery ⟨c1 :: kw.data ++ [c2]⟩ = A ++ (kw.data ++ B) := by
      show trimChars (stripBlock (stripLine (trimChars
        (lowerStr (c1 :: kw.data ++ [c2]))))) = A ++ (kw.data ++ B)
      rw [hlower, htrimEq, stripLine_id hchD, stripBlock_id hchS]
      apply trimChars_eq_self
      · rcases hAor with rfl | ⟨rfl, hcs⟩
        · rw [List.nil_append, hkcons, List.cons_append]
          intro c hc
          rw [List.head?_cons, Option.mem_def, Option.some_inj] at hc
          rw [← hc]
          exact not_space_of_lower
            (hlet k (by rw [hkcons]; exact List.mem_cons_self k kr))
        · intro c hc
          rw [List.cons_append, List.head?_cons, Option.mem_def,
            Option.some_inj] at hc
          rw [← hc]
          exact hcs
      · rcases hBor with rfl | ⟨rfl, hcs⟩
        · rw [List.append_nil]
          intro c hc
          rw [List.getLast?_append_of_ne_nil _ hne] at hc
          obtain ⟨hne2, rfl⟩ := List.mem_getLast?_eq_getLast hc
          exact not_space_of_lower (hlet _ (List.getLast_mem hne2))
        · intro c hc
          rw [← List.append_assoc,
            List.getLast?_append_of_ne_nil _ (List.cons_ne_nil c2 []),
            List.getLast?_singleton, Option.mem_def, Option.some_inj] at hc
          rw [← hc]
          exact hcs
    have hone : ∀ p ∈ "pragma" :: allowedHeads,
        p.data.isPrefixOf (A ++ (kw.data ++ B)) = false := by
      intro p hp
      rcases hAor with rfl | ⟨rfl, -⟩
      · exact isPrefixOf_false_of_take2 p.data kw.data B hlen2 (hpref p hp)
      · rw [List.singleton_append]
        simp only [allowedHeads, List.mem_cons, List.mem_singleton,
          List.not_mem_nil, or_false] at hp
        rcases hp with rfl | rfl | rfl | rfl <;>
        · apply isPrefixOf_false_of_head_ne
          intro heq
          rw [← heq] at h1
          exact absurd h1 (by decide)
    have hE : (A ++ (kw.data ++ B)).isEmpty = false := by
      rcases hAor with rfl | ⟨rfl, -⟩
      · rw [List.nil_append, hkcons, List.cons_append]
        rfl
      · rw [List.cons_append, List.nil_append]
        rfl
    have hheads : ((allowedHeads.map String.data).any
        fun p => p.isPrefixOf (A ++ (kw.data ++ B))) = false := by
      have e1 := hone "select" (by simp [allowedHeads])
      have e2 := hone "with" (by simp [allowedHeads])
      have e3 := hone "explain" (by simp [allowedHeads])
      show (("select".data.isPrefixOf (A ++ (kw.data ++ B))) ||
        (("with".data.isPrefixOf (A ++ (kw.data ++ B))) ||
          (("explain".data.isPrefixOf (A ++ (kw.data ++ B))) || false))) = false
      rw [e1, e2, e3]
      rfl
    have hprag := hone "pragma" (List.mem_cons_self _ _)
    rw [ValidateReadOnlyQuery]
    simp only [hnq, hE, hheads, hprag, Bool.false_eq_true, if_false]
  · intro kw hkw c1 c2 h1 h2
    rw [containsWholeWord, containsWordAux.eq_def, Bool.or_eq_true]
    right
    show containsWordAux kw.data (some c1) (kw.data ++ [c2]) = true
    rw [containsWordAux.eq_def, Bool.or_eq_true]
    left
    have hpre : kw.data.isPrefixOf (kw.data ++ [c2]) = true :=
      listIsPrefixOfIff.mpr ⟨[c2], rfl⟩
    have hdrop : ((kw.data ++ [c2]).drop kw.data.length).head? = some c2 := by
      rw [List.drop_left]
      rfl
    rw [hpre, hdrop]
    show (true && boundaryOk (some c1) && boundaryOk (some c2)) = true
    rw [boundaryOk, boundaryOk, h1, h2]
    rfl

/-- Witness for the amended C2 at the keyword `drop` between two spaces. -/
theorem c2_word_boundary_scan_and_head_gate_witness :
    ValidateReadOnlyQuery ⟨' ' :: "drop".data ++ [' ']⟩ =
      .error .notReadOnly ∧
    containsWholeWord (' ' :: "drop".data ++ [' ']) "drop".data = true :=
  ⟨c2_word_boundary_scan_and_head_gate.1 "drop" (by decide) ' ' ' '
      (by decide) (by decide),
    c2_word_boundary_scan_and_head_gate.2.1 "drop" (by decide) ' ' ' '
      (by decide) (by decide)⟩

/-! ## Claim C4: comment-only queries

The grammar `CommentOnly` describes queries built from whitespace,
single-line comments, and single-line block comments whose bodies contain
no newline, no closing `*/` and no `--` (a `--` inside a block comment
would be eaten by the line-comment pass, which runs first, and a newline
prevents the block regular expression from matching at all — see the
counterexample). -/

/-- Queries consisting only of whitespace and comments that the two
comment regular expressions fully remove. -/
inductive CommentOnly : List Char → Prop
  | nil : CommentOnly []
  | ws {c : Char} {l : List Char} : isGoSpace c = true → CommentOnly l →
      CommentOnly (c :: l)
  | line {body l : List Char} : (∀ c ∈ body, c ≠ '\n') → CommentOnly l →
      CommentOnly ('-' :: '-' :: (body ++ '\n' :: l))
  | lineEnd {body : List Char} : (∀ c ∈ body, c ≠ '\n') →
      CommentOnly ('-' :: '-' :: body)
  | block {body l : List Char} : (∀ c ∈ body, c ≠ '\n') →
      body.Chain' (fun a b => ¬ (a = '*' ∧ b = '/')) →
      body.Chain' (fun a b => ¬ (a = '-' ∧ b = '-')) →
      CommentOnly l →
      CommentOnly ('/' :: '*' :: (body ++ '*' :: '/' :: l))

/-- After the line-comment pass: only whitespace and block comments
remain. -/
inductive BlockWs : List Char → Prop
  | nil : BlockWs []
  | ws {c : Char} {l : List Char} : isGoSpace c = true → BlockWs l →
      BlockWs (c :: l)
  | block {body l : List Char} : (∀ c ∈ body, c ≠ '\n') →
      body.Chain' (fun a b => ¬ (a = '*' ∧ b = '/')) →
      BlockWs l →
      BlockWs ('/' :: '*' :: (body ++ '*' :: '/' :: l))

/-- The trailing-whitespace half of `trimChars`. -/
def backTrim (l : List Char) : List Char :=
  (l.reverse.dropWhile isGoSpace).reverse

/-- `trimChars` is the leading trim followed by the trailing trim. -/
theorem trimChars_eq_backTrim (l : List Char) :
    trimChars l = backTrim (l.dropWhile isGoSpace) := rfl

/-- `backTrim` against an appended tail: either the tail vanishes, or the
head part survives untouched. -/
theorem backTrim_append (m l : List Char) :
    backTrim (m ++ l) =
      if backTrim l = [] then backTrim m else m ++ backTrim l := by
  rw [backTrim, List.reverse_append, List.dropWhile_append]
  by_cases he : l.reverse.dropWhile isGoSpace = []
  · have hb : backTrim l = [] := by rw [backTrim, he]; rfl
    rw [if_pos (by rw [he]; rfl), if_pos hb]
    rfl
  · have hb : backTrim l ≠ [] := by
      rw [backTrim]
      intro hx
      exact he (List.reverse_eq_nil_iff.mp hx)
    rw [if_neg ?hc, if_neg hb, List.reverse_append, List.reverse_reverse]
    · rfl
    case hc =>
      intro hie
      exact he (by rwa [List.isEmpty_iff] at hie)

/-- `backTrim` fixes a list whose last character is not whitespace. -/
theorem backTrim_eq_self_of_last (l : List Char)
    (h : ∀ c ∈ l.getLast?, isGoSpace c = false) : backTrim l = l := by
  rw [backTrim, dropWhile_eq_self_of_head _ _ ?hh, List.reverse_reverse]
  case hh =>
    intro c hc
    apply h
    rwa [List.head?_reverse] at hc

/-- `backTrim` yields an initial run of its input. -/
theorem backTrim_initial (l : List Char) : backTrim l <+: l := by
  have h0 : l.reverse.dropWhile isGoSpace <:+ l.reverse :=
    List.dropWhile_suffix _
  have h := listReversePrefixIff.mpr h0
  rwa [List.reverse_reverse] at h

/-- Concrete evaluations of `backTrim` used below. -/
theorem backTrim_lemmas : backTrim ['\n'] = [] ∧ backTrim ['-', '-'] = ['-', '-'] := by
  constructor <;> rfl

/-- Removing trailing whitespace preserves the comment-only grammar. -/
theorem commentOnly_backTrim {l : List Char} (h : CommentOnly l) :
    CommentOnly (backTrim l) := by
  induction h with
  | nil => exact CommentOnly.nil
  | @ws c l hc _ ih =>
    have hstep : backTrim (c :: l) =
        if backTrim l = [] then backTrim [c] else c :: backTrim l := by
      have h2 := backTrim_append [c] l
      rwa [List.singleton_append] at h2
    rw [hstep]
    by_cases hbl : backTrim l = []
    · rw [if_pos hbl]
      have hone : backTrim [c] = [] := by
        rw [backTrim, List.reverse_singleton, List.dropWhile_cons, if_pos hc]
        rfl
      rw [hone]
      exact CommentOnly.nil
    · rw [if_neg hbl]
      exact CommentOnly.ws hc ih
  | @line body l hbody _ ih =>
    have hd : '-' :: '-' :: (body ++ '\n' :: l) =
        ('-' :: '-' :: body) ++ ('\n' :: l) := by simp
    rw [hd, backTrim_append]
    have hbb : backTrim ('-' :: '-' :: body) = '-' :: '-' :: backTrim body := by
      have h2 := backTrim_append ['-', '-'] body
      rw [show (['-', '-'] : List Char) ++ body = '-' :: '-' :: body from rfl] at h2
      rw [h2]
      by_cases hb : backTrim body = []
      · rw [if_pos hb, backTrim_lemmas.2, hb]
      · rw [if_neg hb]
        rfl
    have hsub : ∀ c ∈ backTrim body, c ≠ '\n' :=
      fun c hc => hbody c ((backTrim_initial body).subset hc)
    by_cases hbl : backTrim ('\n' :: l) = []
    · rw [if_pos hbl, hbb]
      exact CommentOnly.lineEnd hsub
    · rw [if_neg hbl]
      have hstep : backTrim ('\n' :: l) =
          if backTrim l = [] then backTrim ['\n'] else '\n' :: backTrim l := by
        have h2 := backTrim_append ['\n'] l
        rwa [List.singleton_append] at h2
      by_cases hbl2 : backTrim l = []
      · rw [hstep, if_pos hbl2, backTrim_lemmas.1] at hbl
        exact absurd rfl hbl
      · rw [hstep, if_neg hbl2]
        rw [show ('-' :: '-' :: body) ++ ('\n' :: backTrim l) =
          '-' :: '-' :: (body ++ '\n' :: backTrim l) from by simp]
        exact CommentOnly.line hbody ih
  | @lineEnd body hbody =>
    have hbb : backTrim ('-' :: '-' :: body) = '-' :: '-' :: backTrim body := by
      have h2 := backTrim_append ['-', '-'] body
      rw [show (['-', '-'] : List Char) ++ body = '-' :: '-' :: body from rfl] at h2
      rw [h2]
      by_cases hb : backTrim body = []
      · rw [if_pos hb, backTrim_lemmas.2, hb]
      · rw [if_neg hb]
        rfl
    rw [hbb]
    exact CommentOnly.lineEnd
      fun c hc => hbody c ((backTrim_initial body).subset hc)
  | @block body l hbody hcl hdd _ ih =>
    rw [show '/' :: '*' :: (body ++ '*' :: '/' :: l) =
      ('/' :: '*' :: (body ++ ['*', '/'])) ++ l from by simp]
    rw [backTrim_append]
    by_cases hbl : backTrim l = []
    · rw [if_pos hbl]
      rw [backTrim_eq_self_of_last _ ?hlast]
      · exact CommentOnly.block hbody hcl hdd CommentOnly.nil
      case hlast =>
        intro c hc
        rw [show '/' :: '*' :: (body ++ ['*', '/']) =
          ('/' :: '*' :: body ++ ['*']) ++ ['/'] from by simp,
          List.getLast?_append_of_ne_nil _ (List.cons_ne_nil '/' []),
          List.getLast?_singleton, Option.mem_def, Option.some_inj] at hc
        rw [← hc]
        decide
    · rw [if_neg hbl]
      rw [show ('/' :: '*' :: (body ++ ['*', '/'])) ++ backTrim l =
        '/' :: '*' :: (body ++ '*' :: '/' :: backTrim l) from by simp]
      exact CommentOnly.block hbody hcl hdd ih

/-- Removing leading whitespace preserves the comment-only grammar. -/
theorem commentOnly_dropWhile {l : List Char} (h : CommentOnly l) :
    CommentOnly (l.dropWhile isGoSpace) := by
  induction h with
  | nil => exact CommentOnly.nil
  | @ws c l hc _ ih =>
    rw [List.dropWhile_cons, if_pos hc]
    exact ih
  | @line body l hbody hl _ =>
    rw [List.dropWhile_cons, if_neg (by decide)]
    exact CommentOnly.line hbody hl
  | @lineEnd body hbody =>
    rw [List.dropWhile_cons, if_neg (by decide)]
    exact CommentOnly.lineEnd hbody
  | @block body l hbody hcl hdd hl _ =>
    rw [List.dropWhile_cons, if_neg (by decide)]
    exact CommentOnly.block hbody hcl hdd hl

/-- Trimming preserves the comment-only grammar. -/
theorem commentOnly_trimChars {l : List Char} (h : CommentOnly l) :
    CommentOnly (trimChars l) := by
  rw [trimChars_eq_backTrim]
  exact commentOnly_backTrim (commentOnly_dropWhile h)

/-- A character lowercasing to a code point below 97 was that character
already. -/
theorem eq_of_lowerChar_low {c d : Char} (h : lowerChar c = d)
    (hd : d.toNat < 97) : c = d := by
  rw [lowerChar] at h
  by_cases hu : 65 ≤ c.toNat ∧ c.toNat ≤ 90
  · rw [if_pos hu] at h
    have := congrArg Char.toNat h
    rw [toNat_ofNat_valid (by omega)] at this
    omega
  · rwa [if_neg hu] at h

/-- Lowercasing preserves the comment-only grammar: the marker characters
and the newline are fixed, and no character can become one of them. -/
theorem commentOnly_lower {l : List Char} (h : CommentOnly l) :
    CommentOnly (lowerStr l) := by
  induction h with
  | nil => exact CommentOnly.nil
  | @ws c l hc _ ih =>
    rw [lowerStr, List.map_cons]
    rw [lowerChar_eq_self (by
      rw [isGoSpace, decide_eq_true_eq] at hc
      omega)]
    exact CommentOnly.ws hc ih
  | @line body l hbody _ ih =>
    rw [lowerStr, List.map_cons, List.map_cons, List.map_append,
      List.map_cons]
    rw [show lowerChar '-' = '-' from by decide,
      show lowerChar '\n' = '\n' from by decide]
    refine CommentOnly.line ?_ ih
    intro c hc
    obtain ⟨y, hy, rfl⟩ := List.mem_map.mp hc
    intro hnl
    exact hbody y hy (eq_of_lowerChar_low hnl (by decide))
  | @lineEnd body hbody =>
    rw [lowerStr, List.map_cons, List.map_cons]
    rw [show lowerChar '-' = '-' from by decide]
    refine CommentOnly.lineEnd ?_
    intro c hc
    obtain ⟨y, hy, rfl⟩ := List.mem_map.mp hc
    intro hnl
    exact hbody y hy (eq_of_lowerChar_low hnl (by decide))
  | @block body l hbody hcl hdd _ ih =>
    rw [lowerStr, List.map_cons, List.map_cons, List.map_append,
      List.map_cons, List.map_cons]
    rw [show lowerChar '/' = '/' from by decide,
      show lowerChar '*' = '*' from by decide]
    refine CommentOnly.block ?_ ?_ ?_ ih
    · intro c hc
      obtain ⟨y, hy, rfl⟩ := List.mem_map.mp hc
      intro hnl
      exact hbody y hy (eq_of_lowerChar_low hnl (by decide))
    · rw [List.chain'_map]
      refine hcl.imp ?_
      rintro a b hab ⟨ha, hb⟩
      exact hab ⟨eq_of_lowerChar_low ha (by decide),
        eq_of_lowerChar_low hb (by decide)⟩
    · rw [List.chain'_map]
      refine hdd.imp ?_
      rintro a b hab ⟨ha, hb⟩
      exact hab ⟨eq_of_lowerChar_low ha (by decide),
        eq_of_lowerChar_low hb (by decide)⟩

/-- Inside a line comment with no newline ahead, everything is dropped. -/
theorem stripLineAux_true_no_nl (m : List Char)
    (h : ∀ c ∈ m, c ≠ '\n') : stripLineAux true m = [] := by
  induction m with
  | nil => rfl
  | cons c rest ih =>
    rw [stripLineAux, if_neg (h c (List.mem_cons_self c rest))]
    exact ih fun x hx => h x (List.mem_cons_of_mem c hx)

/-- Inside a line comment, everything up to the newline is dropped; the
newline survives and ends the comment. -/
theorem stripLineAux_true_to_nl (m l : List Char)
    (h : ∀ c ∈ m, c ≠ '\n') :
    stripLineAux true (m ++ '\n' :: l) = '\n' :: stripLineAux false l := by
  induction m with
  | nil => rfl
  | cons c rest ih =>
    rw [List.cons_append, stripLineAux,
      if_neg (h c (List.mem_cons_self c rest))]
    exact ih fun x hx => h x (List.mem_cons_of_mem c hx)

/-- Outside a comment, a block free of `--` passes through the
line-comment scan untouched (the first character after the block must not
extend a trailing `-` into a `--` either). -/
theorem stripLineAux_false_append (body suffix : List Char)
    (hch : body.Chain' fun a b => ¬ (a = '-' ∧ b = '-'))
    (hbd : ∀ x ∈ body.getLast?, ∀ y ∈ suffix.head?, ¬ (x = '-' ∧ y = '-')) :
    stripLineAux false (body ++ suffix) =
      body ++ stripLineAux false suffix := by
  induction body with
  | nil => rfl
  | cons c rest ih =>
    rw [List.cons_append, stripLineAux_false_cons c _ ?hcond, List.cons_append]
    · rw [ih hch.tail ?hbd2]
      case hbd2 =>
        intro x hx y hy
        apply hbd
        · obtain ⟨hne2, rfl⟩ := List.mem_getLast?_eq_getLast hx
          rw [show c :: rest = [c] ++ rest from rfl,
            List.getLast?_append_of_ne_nil _ hne2]
          exact hx
        · exact hy
    case hcond =>
      rintro ⟨rfl, hh⟩
      cases rest with
      | nil =>
        rw [List.nil_append] at hh
        exact hbd '-' (by rw [List.getLast?_singleton]; rfl) '-' hh ⟨rfl, rfl⟩
      | cons c2 r2 =>
        rw [List.cons_append, List.head?_cons, Option.some_inj] at hh
        exact (List.chain'_cons.mp hch).1 ⟨rfl, hh⟩

/-- The line-comment pass turns a comment-only query into whitespace and
block comments. -/
theorem stripLine_commentOnly {l : List Char} (h : CommentOnly l) :
    BlockWs (stripLine l) := by
  induction h with
  | nil => exact BlockWs.nil
  | @ws c l hc _ ih =>
    have hcc : ¬ (c = '-' ∧ l.head? = some '-') := by
      rintro ⟨rfl, -⟩
      exact absurd hc (by decide)
    rw [stripLine] at ih ⊢
    rw [stripLineAux_false_cons c l hcc]
    exact BlockWs.ws hc ih
  | @line body l hbody _ ih =>
    have hstep : stripLine ('-' :: '-' :: (body ++ '\n' :: l)) =
        stripLineAux true (('-' :: body) ++ '\n' :: l) := rfl
    rw [hstep, stripLineAux_true_to_nl _ _ ?hm]
    · exact BlockWs.ws (by decide) ih
    case hm =>
      intro c hc
      rcases List.mem_cons.mp hc with rfl | hc2
      · decide
      · exact hbody c hc2
  | @lineEnd body hbody =>
    have hstep : stripLine ('-' :: '-' :: body) =
        stripLineAux true ('-' :: body) := rfl
    rw [hstep, stripLineAux_true_no_nl _ ?hm]
    · exact BlockWs.nil
    case hm =>
      intro c hc
      rcases List.mem_cons.mp hc with rfl | hc2
      · decide
      · exact hbody c hc2
  | @block body l hbody hcl hdd _ ih =>
    have hstep : stripLine ('/' :: '*' :: (body ++ '*' :: '/' :: l)) =
        '/' :: '*' :: stripLineAux false (body ++ '*' :: '/' :: l) := rfl
    rw [hstep, stripLineAux_false_append body _ hdd ?hbd]
    · have htail : stripLineAux false ('*' :: '/' :: l) =
          '*' :: '/' :: stripLineAux false l := by
        rw [stripLineAux_false_cons '*' _ (by rintro ⟨h, -⟩; cases h),
          stripLineAux_false_cons '/' _ (by rintro ⟨h, -⟩; cases h)]
      rw [htail]
      exact BlockWs.block hbody hcl ih
    case hbd =>
      intro x _ y hy
      rw [List.head?_cons, Option.mem_def, Option.some_inj] at hy
      rintro ⟨-, rfl⟩
      cases hy

/-- `chopClose` scans through a newline-free body with no inner `*/` and
stops exactly at the closing `*/`. -/
theorem chopClose_through (body l : List Char)
    (hnl : ∀ c ∈ body, c ≠ '\n')
    (hcl : body.Chain' fun a b => ¬ (a = '*' ∧ b = '/')) :
    chopClose (body ++ '*' :: '/' :: l) = some l := by
  induction body with
  | nil => rfl
  | cons c rest ih =>
    rw [List.cons_append, chopClose, if_neg ?h1, if_neg ?h2]
    · exact ih (fun x hx => hnl x (List.mem_cons_of_mem c hx)) hcl.tail
    case h1 =>
      rintro ⟨rfl, hh⟩
      cases rest with
      | nil =>
        rw [List.nil_append, List.head?_cons, Option.some_inj] at hh
        cases hh
      | cons c2 r2 =>
        rw [List.cons_append, List.head?_cons, Option.some_inj] at hh
        exact (List.chain'_cons.mp hcl).1 ⟨rfl, hh⟩
    case h2 =>
      exact hnl c (List.mem_cons_self c rest)

/-- The block-comment pass leaves only whitespace of a whitespace-and-
block-comment query. -/
theorem stripBlock_blockWs {l : List Char} (h : BlockWs l) :
    (stripBlock l).all isGoSpace = true := by
  induction h with
  | nil => rfl
  | @ws c l hc _ ih =>
    rw [stripBlock_cons, if_neg ?hcc, List.all_cons, hc, ih]
    · rfl
    case hcc =>
      rintro ⟨rfl, -⟩
      exact absurd hc (by decide)
  | @block body l hbody hcl _ ih =>
    rw [stripBlock_cons, if_pos ⟨rfl, rfl⟩]
    rw [show ('*' :: (body ++ '*' :: '/' :: l)).tail = body ++ '*' :: '/' :: l
      from rfl]
    rw [chopClose_through body l hbody hcl]
    exact ih

/-- Trimming an all-whitespace list leaves nothing. -/
theorem trim_of_all_ws (l : List Char) (h : l.all isGoSpace = true) :
    trimChars l = [] := by
  rw [trimChars, List.dropWhile_eq_nil_iff.mpr
    fun x hx => List.all_eq_true.mp h x hx]
  rfl

/-- C4 counterexample: a block comment spanning two lines is not stripped
(the Go block-comment regular expression's `.` does not match a newline),
so the query fails with `NotReadOnly`, not `EmptyQuery` as claimed. -/
theorem c4_multiline_block_comment_counterexample :
    ValidateReadOnlyQuery "/* a\nb */" = .error .notReadOnly ∧
    ValidateReadOnlyQuery "/* a\nb */" ≠ .error .emptyQuery := by
  decide

/-- C4 amended: a query consisting only of whitespace, line comments, and
block comments confined to one line whose bodies contain neither `--` nor
an inner `*/` fails with `EmptyQuery`; block comments spanning several
lines are not stripped (see the counterexample). -/
theorem c4_comment_only_empty_query (q : String) (h : CommentOnly q.data) :
    ValidateReadOnlyQuery q = .error .emptyQuery := by
  have h1 := commentOnly_trimChars (commentOnly_lower h)
  have h2 := stripLine_commentOnly h1
  have h3 := stripBlock_blockWs h2
  have h4 : normalizeQuery q = [] := trim_of_all_ws _ h3
  rw [ValidateReadOnlyQuery]
  simp only [h4]
  rfl

/-- Witness for C4 at the comment-only query `--x` newline `/*y*/`. -/
theorem c4_comment_only_empty_query_witness :
    ValidateReadOnlyQuery "--x\n/*y*/" = .error .emptyQuery := by
  apply c4_comment_only_empty_query
  show CommentOnly ('-' :: '-' :: (['x'] ++ '\n' ::
    ('/' :: '*' :: (['y'] ++ '*' :: '/' :: []))))
  exact CommentOnly.line (by decide)
    (CommentOnly.block (by decide) (List.chain'_singleton 'y')
      (List.chain'_singleton 'y') CommentOnly.nil)
